import Mathlib

/-!
Verification of the order-line parsing core of the ProjetoJocasta repository.

Python strings are modelled as `List Char` (`Str`); every string operation the
source uses (strip, upper, comma splitting, whitespace collapsing, digit tests,
regular-expression matches) is embedded as an executable function on `Str`.
Each tool module of the repository gets its own namespace mirroring the Python
module of the same name.
-/

set_option maxHeartbeats 1000000

abbrev Str := List Char

namespace Py

/-- Whitespace characters removed by Python `str.strip()` (the ASCII ones;
the repository's inputs contain no exotic unicode whitespace). -/
def isWS (c : Char) : Bool :=
  c = ' ' || c = '\t' || c = '\n' || c = '\r' || c = '\x0b' || c = '\x0c'

/-- `str.lstrip()`. -/
def lstrip (s : Str) : Str := s.dropWhile isWS

/-- `str.rstrip()`. -/
def rstrip (s : Str) : Str := (s.reverse.dropWhile isWS).reverse

/-- `str.strip()`. -/
def strip (s : Str) : Str := rstrip (lstrip s)

/-- ASCII uppercasing of one character (`str.upper()` on the data that occurs
in the repository's inputs). -/
def upChar (c : Char) : Char :=
  if 'a' ≤ c && c ≤ 'z' then Char.ofNat (c.toNat - 32) else c

/-- `str.upper()`. -/
def upper (s : Str) : Str := s.map upChar

/-- `str.split(sep)` for a one-character separator: preserves empty pieces. -/
def splitOn (sep : Char) : Str → List Str
  | [] => [[]]
  | c :: rest =>
    if c = sep then [] :: splitOn sep rest
    else
      match splitOn sep rest with
      | [] => [[c]]
      | h :: t => (c :: h) :: t

/-- `re.split` on a character class: splits at every separator character,
keeping empty pieces (callers filter them out as the Python code does). -/
def splitOnPred (p : Char → Bool) : Str → List Str
  | [] => [[]]
  | c :: rest =>
    if p c then [] :: splitOnPred p rest
    else
      match splitOnPred p rest with
      | [] => [[c]]
      | h :: t => (c :: h) :: t

/-- `sep.join(pieces)` for a one-character separator. -/
def joinSep (sep : Char) : List Str → Str
  | [] => []
  | [p] => p
  | p :: q :: t => p ++ sep :: joinSep sep (q :: t)

/-- `str.splitlines()` for `\n`-separated text (the only separator the
repository's text-widget inputs contain): like splitting on `\n` but without
a trailing empty line when the text ends in `\n`. -/
def splitlines (s : Str) : List Str :=
  if s = [] then []
  else if s.getLast? = some '\n' then (splitOn '\n' s).dropLast
  else splitOn '\n' s

def isDigitChar (c : Char) : Bool := '0' ≤ c && c ≤ '9'

def isAsciiLetter (c : Char) : Bool := ('A' ≤ c && c ≤ 'Z') || ('a' ≤ c && c ≤ 'z')

def isAlnumChar (c : Char) : Bool := isDigitChar c || isAsciiLetter c

/-- Python `str.isdigit()` (non-empty, all decimal digits). -/
def isdigit (s : Str) : Bool := !s.isEmpty && s.all isDigitChar

/-- `any(ch.isdigit() for ch in s)`. -/
def hasDigit (s : Str) : Bool := s.any isDigitChar

/-- `int(s)` for a string of decimal digits. -/
def natOfDigits (s : Str) : Nat := s.foldl (fun a c => a * 10 + (c.toNat - 48)) 0

def digitChar (n : Nat) : Char := Char.ofNat (48 + n)

/-- Decimal rendering of a natural number (`f"{n}"`). -/
def natStr (n : Nat) : Str := Nat.toDigits 10 n

/-- Does `pat` occur as a prefix of `s`? -/
def startsWith : Str → Str → Bool
  | [], _ => true
  | _ :: _, [] => false
  | p :: ps, c :: cs => p = c && startsWith ps cs

/-- Python substring test `pat in s`. -/
def hasSub (pat : Str) : Str → Bool
  | [] => pat.isEmpty
  | c :: cs => startsWith pat (c :: cs) || hasSub pat cs

/-- `s.split(sep, 1)` when the separator occurs: the pieces before and after
the first occurrence. -/
def splitOnce (sep : Char) : Str → Option (Str × Str)
  | [] => none
  | c :: r =>
    if c = sep then some ([], r)
    else (splitOnce sep r).map (fun p => (c :: p.1, p.2))

/-- Python code-point lexicographic `<` on strings. -/
def strLtB : Str → Str → Bool
  | [], [] => false
  | [], _ :: _ => true
  | _ :: _, [] => false
  | a :: as, b :: bs => if a < b then true else if b < a then false else strLtB as bs

/-- Python `≤` on strings (total order derived from `strLtB`). -/
def strLeB (s t : Str) : Bool := !(strLtB t s)

/-- Python tuple comparison `(a₁,a₂) ≤ (b₁,b₂)` on string pairs. -/
def pairLeB (a b : Str × Str) : Bool :=
  if strLtB a.1 b.1 then true
  else if a.1 = b.1 then strLeB a.2 b.2
  else false

end Py

section ExceptInstances

instance {ε α : Type} [DecidableEq ε] [DecidableEq α] : DecidableEq (Except ε α) := fun x y =>
  match x, y with
  | .ok a, .ok b =>
    if h : a = b then isTrue (by rw [h]) else isFalse (fun hh => by cases hh; exact h rfl)
  | .error a, .error b =>
    if h : a = b then isTrue (by rw [h]) else isFalse (fun hh => by cases hh; exact h rfl)
  | .ok _, .error _ => isFalse (fun hh => by cases hh)
  | .error _, .ok _ => isFalse (fun hh => by cases hh)

/-- Is an `Except` a success? -/
def exOk {ε α : Type} : Except ε α → Bool
  | .ok _ => true
  | .error _ => false

/-- The error of an `Except`, if any. -/
def exErr {ε α : Type} : Except ε α → Option ε
  | .error e => some e
  | .ok _ => none

end ExceptInstances

namespace PXListLite

open Py

/-- `VALID_SIZES` of PXListLite.py. -/
def VALID_SIZES : List Str :=
  [['P','P'], ['P'], ['M'], ['G'], ['G','G'], ['X','G'], ['X','G','G'],
   ['B','L','P','P'], ['B','L','P'], ['B','L','M'], ['B','L','G'], ['B','L','G','G'],
   ['2','A'], ['4','A'], ['6','A'], ['8','A'], ['1','0','A'], ['1','2','A'],
   ['1','4','A'], ['1','6','A']]

/-- `QTY_SIZE_RE = ^\s*\d+\s*-\s*([A-Za-z0-9]+)\s*$`: returns the captured
alphanumeric group when the token matches. -/
def qtySizeGroup (s : Str) : Option Str :=
  let t1 := s.dropWhile isWS
  let ds := t1.takeWhile isDigitChar
  if ds.isEmpty then none
  else
    match (t1.drop ds.length).dropWhile isWS with
    | '-' :: t4 =>
      let t5 := t4.dropWhile isWS
      let al := t5.takeWhile isAlnumChar
      if al.isEmpty then none
      else if (t5.drop al.length).all isWS then some al
      else none
    | _ => none

/-- `_clean_token`. -/
def clean_token (s : Str) : Str := strip s

/-- `_upper`. -/
def upTok (s : Str) : Str := upper (clean_token s)

/-- `_is_number`: all-digit token (preserves leading zeros). -/
def is_number (tok : Str) : Bool := isdigit (clean_token tok)

/-- `_is_size`: member of `VALID_SIZES`, or a `QTY-SIZE` token whose size part
is a member. -/
def is_size (tok : Str) : Bool :=
  let t := upTok tok
  if t.isEmpty then false
  else if t ∈ VALID_SIZES then true
  else
    match qtySizeGroup t with
    | some g => upTok g ∈ VALID_SIZES
    | none => false

/-- `ParsedRow` of PXListLite.py (`tams` as a list, `s2`/`s3` possibly empty). -/
structure ParsedRow where
  name : Str
  number : Str
  tams : List Str
  s2 : Str
  s3 : Str
deriving DecidableEq

/-- State of the token-classification loop inside `parse_line`. -/
structure LSt where
  name : Str
  number : Str
  tams : List Str
  extras : List Str
deriving DecidableEq

/-- One iteration of the classification loop of `parse_line`. -/
def step (st : LSt) (tok : Str) : LSt :=
  let t := clean_token tok
  if t.isEmpty then st
  else
    let up := upper t
    if is_size up then { st with tams := st.tams ++ [up] }
    else if is_number t && st.number.isEmpty then { st with number := up }
    else if st.name.isEmpty then { st with name := up }
    else { st with extras := st.extras ++ [up] }

/-- The comma-split, per-piece-trimmed token list of a line. -/
def partsOf (raw : Str) : List Str := (splitOn ',' raw).map clean_token

/-- `parse_line` of PXListLite.py: `.ok none` for a blank line, `.error` for
no/too many sizes, otherwise the classified row. -/
def parse_line (line : Str) : Except Str (Option ParsedRow) :=
  let raw := strip line
  if raw.isEmpty then .ok none
  else
    let st := (partsOf raw).foldl step ⟨[], [], [], []⟩
    if st.tams.isEmpty then
      .error (('S' :: ('e' :: ('m' :: (' ' :: ['T','A','M','1',' ','r','e','c','o','n','h','e','c','i','d','o',':',' '])))) ++ raw)
    else if 4 < st.tams.length then
      .error ((['M','a','i','s',' ','d','e',' ','4',' ','T','A','M','s',' ','n','a',' ','l','i','n','h','a',':',' ']) ++ raw)
    else
      .ok (some ⟨st.name, st.number, st.tams, st.extras.headD [], (st.extras.drop 1).headD []⟩)

/-- The per-row column list emitted by `build_output` for a batch whose
maximal TAM count is `maxT` and whose optional columns are `h2`/`h3`. -/
def rowCols (maxT : Nat) (h2 h3 : Bool) (r : ParsedRow) : List Str :=
  [r.name, r.number] ++ (r.tams ++ List.replicate (maxT - r.tams.length) [])
    ++ (if h2 then [r.s2] else []) ++ (if h3 then [r.s3] else [])

/-- The comma-joined output line for one row. -/
def rowLine (maxT : Nat) (h2 h3 : Bool) (r : ParsedRow) : Str :=
  joinSep ',' (rowCols maxT h2 h3 r)

/-- `max(len(r.tams) for r in rows)` (0 for the empty batch, which
`build_output` never reaches). -/
def maxTams (rows : List ParsedRow) : Nat :=
  rows.foldl (fun a r => max a r.tams.length) 0

def hasS2 (rows : List ParsedRow) : Bool := rows.any fun r => !r.s2.isEmpty

def hasS3 (rows : List ParsedRow) : Bool := rows.any fun r => !r.s3.isEmpty

/-- `build_output` of PXListLite.py. -/
def build_output (rows : List ParsedRow) : Str :=
  if rows.isEmpty then []
  else joinSep '\n' (rows.map (rowLine (maxTams rows) (hasS2 rows) (hasS3 rows)))

/-- The line-indexed loop of `process_text`: the first failing line aborts the
whole batch with a `Linha {i}` error. -/
def processLines : Nat → List Str → Except Str (List ParsedRow)
  | _, [] => .ok []
  | i, l :: ls =>
    if (strip l).isEmpty then processLines (i + 1) ls
    else
      match parse_line l with
      | .error e => .error ((['L','i','n','h','a',' '] ++ natStr i ++ [':', ' ']) ++ e)
      | .ok none => processLines (i + 1) ls
      | .ok (some r) => (processLines (i + 1) ls).map (r :: ·)

/-- Sort key `(r.name, r.number)`; Python tuple/string comparison. -/
def rowLe (a b : ParsedRow) : Prop := pairLeB (a.name, a.number) (b.name, b.number) = true

instance : DecidableRel rowLe := fun a b => inferInstanceAs (Decidable (_ = true))

/-- `process_text` of PXListLite.py. -/
def process_text (text : Str) : Except Str Str :=
  (processLines 1 (splitlines text)).map fun rows =>
    build_output (List.insertionSort rowLe rows)

end PXListLite

namespace PXTotaList

open Py

/-- `ADULT_SIZES` of PXTotaList.py (PP..XXGG). -/
def ADULT_SIZES : List Str :=
  [['P','P'], ['P'], ['M'], ['G'], ['G','G'], ['X','G','G'], ['X','X','G','G']]

/-- `CHILD_SIZE_RE = ^(?:[2-9]|1[0-2])A$` (case-insensitive): 2A..12A. -/
def is_child_size (s : Str) : Bool :=
  match s with
  | [c, a] => ('2' ≤ c && c ≤ '9') && (a = 'A' || a = 'a')
  | [c1, c2, a] => (c1 = '1') && ('0' ≤ c2 && c2 ≤ '2') && (a = 'A' || a = 'a')
  | _ => false

def is_adult_size (s : Str) : Bool := s ∈ ADULT_SIZES

/-- `_is_babylook_size`: `BL` followed by an adult size. -/
def is_babylook_size (s : Str) : Bool :=
  let u := upper s
  startsWith ['B','L'] u && is_adult_size (u.drop 2)

def validCode (s : Str) : Bool := is_adult_size s || is_child_size s || is_babylook_size s

/-- `QTY_SIZE_RE = ^\s*(\d+)\s*-\s*([A-Za-z0-9]+)\s*$`: both captured groups. -/
def qtySizeGroups (s : Str) : Option (Str × Str) :=
  let t1 := s.dropWhile isWS
  let ds := t1.takeWhile isDigitChar
  if ds.isEmpty then none
  else
    match (t1.drop ds.length).dropWhile isWS with
    | '-' :: t4 =>
      let t5 := t4.dropWhile isWS
      let al := t5.takeWhile isAlnumChar
      if al.isEmpty then none
      else if (t5.drop al.length).all isWS then some (ds, al)
      else none
    | _ => none

/-- `_is_size_token`. -/
def is_size_token (tok : Str) : Bool :=
  let t := upper (strip tok)
  if t.isEmpty then false
  else if validCode t then true
  else
    match qtySizeGroups t with
    | some (_, al) => validCode (upper (strip al))
    | none => false

/-- `_normalize_size_token`: always `QTY-SIZE` (qty defaults to 1); rejects a
zero quantity or an invalid size. -/
def normalize_size_token (tok : Str) : Except Str Str :=
  let t := upper (strip tok)
  if t.isEmpty then .error (['T','a','m','a','n','h','o',' ','v','a','z','i','o','.'])
  else
    match qtySizeGroups t with
    | some (ds, al) =>
      let qty := natOfDigits ds
      let size := upper (strip al)
      if qty = 0 then
        .error (['Q','u','a','n','t','i','d','a','d','e',' ','i','n','v','a','l','i','d','a','.'])
      else if !validCode size then
        .error (['T','a','m','a','n','h','o',' ','i','n','v','a','l','i','d','o','.'])
      else .ok (natStr qty ++ '-' :: size)
    | none =>
      if !validCode t then
        .error (['T','a','m','a','n','h','o',' ','i','n','v','a','l','i','d','o','.'])
      else .ok ('1' :: '-' :: t)

/-- `_is_forbidden`: a non-empty token containing a quote character. -/
def is_forbidden (tok : Str) : Bool :=
  let t := strip tok
  !t.isEmpty && (t.any fun c => c = '"' || c = '\'')

/-- `_is_number`: at least one digit. -/
def is_number (tok : Str) : Bool :=
  let t := strip tok
  !t.isEmpty && hasDigit t

structure ParsedRow where
  name : Str
  number : Str
  tams : List Str
  s2 : Str
  s3 : Str
deriving DecidableEq

structure TSt where
  name : Str
  number : Str
  tams : List Str
  extras : List Str
deriving DecidableEq

/-- The body of the classification loop of `parse_line`, for one token that
passed the forbidden-quote check; size normalization can fail. -/
def stepTok (st : TSt) (tok : Str) : Except Str TSt :=
  let t := strip tok
  if t.isEmpty then .ok st
  else
    let up := upper t
    if is_size_token up then
      (normalize_size_token up).map fun n => { st with tams := st.tams ++ [n] }
    else if is_number t && st.number.isEmpty then .ok { st with number := up }
    else if st.name.isEmpty then .ok { st with name := up }
    else .ok { st with extras := st.extras ++ [up] }

/-- The classification loop of `parse_line` (raises on a forbidden token). -/
def loop : TSt → List Str → Except Str TSt
  | st, [] => .ok st
  | st, tok :: rest =>
    if is_forbidden tok then
      .error (['T','o','k','e','n',' ','i','n','v','a','l','i','d','o',':',' '] ++ tok)
    else
      match stepTok st tok with
      | .error e => .error e
      | .ok st' => loop st' rest

def partsOf (raw : Str) : List Str := (splitOn ',' raw).map strip

/-- `parse_line` of PXTotaList.py. -/
def parse_line (line : Str) : Except Str (Option ParsedRow) :=
  let raw := strip line
  if raw.isEmpty then .ok none
  else
    match loop ⟨[], [], [], []⟩ (partsOf raw) with
    | .error e => .error e
    | .ok st =>
      if st.tams.isEmpty then
        .error (['S','e','m',' ','T','A','M',' ','r','e','c','o','n','h','e','c','i','d','o',':',' '] ++ raw)
      else if 6 < st.tams.length then
        .error (['M','a','i','s',' ','d','e',' ','6',' ','T','A','M','s',' ','n','a',' ','l','i','n','h','a',':',' '] ++ raw)
      else
        .ok (some ⟨st.name, st.number, st.tams, st.extras.headD [], (st.extras.drop 1).headD []⟩)

/-- The line-indexed loop of `process_text`: the first failing line aborts the
whole batch. -/
def processLines : Nat → List Str → Except Str (List ParsedRow)
  | _, [] => .ok []
  | i, l :: ls =>
    if (strip l).isEmpty then processLines (i + 1) ls
    else
      match parse_line l with
      | .error e => .error ((['L','i','n','h','a',' '] ++ natStr i ++ [':', ' ']) ++ e)
      | .ok none => processLines (i + 1) ls
      | .ok (some r) => (processLines (i + 1) ls).map (r :: ·)

def rowLe (a b : ParsedRow) : Prop := pairLeB (a.name, a.number) (b.name, b.number) = true

instance : DecidableRel rowLe := fun _ _ => inferInstanceAs (Decidable (_ = true))

def maxTams (rows : List ParsedRow) : Nat :=
  rows.foldl (fun a r => max a r.tams.length) 0

def hasS2 (rows : List ParsedRow) : Bool := rows.any fun r => !r.s2.isEmpty

def hasS3 (rows : List ParsedRow) : Bool := rows.any fun r => !r.s3.isEmpty

def rowCols (maxT : Nat) (h2 h3 : Bool) (r : ParsedRow) : List Str :=
  [r.name, r.number] ++ (r.tams ++ List.replicate (maxT - r.tams.length) [])
    ++ (if h2 then [r.s2] else []) ++ (if h3 then [r.s3] else [])

/-- `build_output` of PXTotaList.py. -/
def build_output (rows : List ParsedRow) : Str :=
  if rows.isEmpty then []
  else joinSep '\n' (rows.map fun r => joinSep ',' (rowCols (maxTams rows) (hasS2 rows) (hasS3 rows) r))

/-- `process_text` of PXTotaList.py. -/
def process_text (text : Str) : Except Str Str :=
  (processLines 1 (splitlines text)).map fun rows =>
    build_output (List.insertionSort rowLe rows)

end PXTotaList

namespace PXList

open Py

/-- `ALLOWED_SIZES` of PXList.py (PP..XXGG, no child sizes). -/
def ALLOWED_SIZES : List Str :=
  [['P','P'], ['P'], ['M'], ['G'], ['G','G'], ['X','G','G'], ['X','X','G','G']]

/-- `QTY_DASH_SIZE_RE = ^\s*(\d+)\s*-\s*([A-Za-z]+)\s*$`: digit and letter groups. -/
def qtyDashLetters (s : Str) : Option (Str × Str) :=
  let t1 := s.dropWhile isWS
  let ds := t1.takeWhile isDigitChar
  if ds.isEmpty then none
  else
    match (t1.drop ds.length).dropWhile isWS with
    | '-' :: t4 =>
      let t5 := t4.dropWhile isWS
      let ls := t5.takeWhile isAsciiLetter
      if ls.isEmpty then none
      else if (t5.drop ls.length).all isWS then some (ds, ls)
      else none
    | _ => none

/-- `QTY_SIZE_RE = ^\s*(\d+)\s*([A-Za-z]+)\s*$` (glued form like `3M`). -/
def qtyGluedLetters (s : Str) : Option (Str × Str) :=
  let t1 := s.dropWhile isWS
  let ds := t1.takeWhile isDigitChar
  if ds.isEmpty then none
  else
    let t5 := (t1.drop ds.length).dropWhile isWS
    let ls := t5.takeWhile isAsciiLetter
    if ls.isEmpty then none
    else if (t5.drop ls.length).all isWS then some (ds, ls)
    else none

/-- `normalize_number`: keep only the digits and left-pad with zeros to two
characters (`zfill(2)`); empty when there are no digits. -/
def normalize_number (raw : Str) : Str :=
  let ds := raw.filter isDigitChar
  if ds.isEmpty then [] else List.replicate (2 - ds.length) '0' ++ ds

/-- `is_size_token` of PXList.py: only-letters token that is an allowed adult
size or `BL` + allowed adult size. -/
def is_size_token (tok : Str) : Bool :=
  let t := upper (strip tok)
  if t.isEmpty then false
  else if !(t.all fun c => 'A' ≤ c && c ≤ 'Z') then false
  else if t ∈ ALLOWED_SIZES then true
  else startsWith ['B','L'] t && (t.drop 2) ∈ ALLOWED_SIZES

/-- `tokenize_line`: split on commas AND whitespace runs, dropping empty
tokens (so empty positions are NOT preserved). -/
def tokenize_line (line : Str) : List Str :=
  let raw := (strip line).filter (· ≠ '\uFEFF')
  (splitOnPred (fun c => c = ',' || isWS c) raw).filter (· ≠ [])

/-- Pass 1 of `extract_qty_and_size`: first token that is `qty-SIZE`,
`qtySIZE` glued, or a bare size; returns (qty, size, remaining tokens). -/
def findSize1 : List Str → Option (Nat × Str × List Str)
  | [] => none
  | tok :: rest =>
    let t := upper (strip tok)
    let viaDash :=
      match qtyDashLetters t with
      | some (ds, ls) =>
        if is_size_token (upper ls) then some (natOfDigits ds, upper ls) else none
      | none => none
    let viaGlued :=
      match qtyGluedLetters t with
      | some (ds, ls) =>
        if is_size_token (upper ls) then some (natOfDigits ds, upper ls) else none
      | none => none
    match viaDash with
    | some (q, sz) => some (q, sz, rest)
    | none =>
      match viaGlued with
      | some (q, sz) => some (q, sz, rest)
      | none =>
        if is_size_token t then some (1, t, rest)
        else (findSize1 rest).map fun p => (p.1, p.2.1, tok :: p.2.2)

/-- Pass 2 of `extract_qty_and_size`: a bare digit token immediately followed
by a bare size token (`2 BLP`). -/
def findSize2 : List Str → Option (Nat × Str × List Str)
  | [] => none
  | tok :: rest =>
    let t := upper (strip tok)
    match rest with
    | [] => none
    | nxt :: rest2 =>
      let n := upper (strip nxt)
      if isdigit t && is_size_token n then some (natOfDigits t, n, rest2)
      else (findSize2 rest).map fun p => (p.1, p.2.1, tok :: p.2.2)

/-- `extract_qty_and_size` of PXList.py. -/
def extract_qty_and_size (tokens : List Str) : Except Str (Nat × Str × List Str) :=
  match findSize1 tokens with
  | some r => .ok r
  | none =>
    match findSize2 tokens with
    | some r => .ok r
    | none => .error (['T','a','m','a','n','h','o',' ','n','a','o',' ','e','n','c','o','n','t','r','a','d','o','.'])

/-- `extract_number`: first token containing a digit, normalized. -/
def extract_number : List Str → (Str × List Str)
  | [] => ([], [])
  | tok :: rest =>
    if hasDigit tok then (normalize_number tok, rest)
    else
      let p := extract_number rest
      (p.1, tok :: p.2)

/-- `parse_line_smart` of PXList.py: positional `Nome, Número, Tamanho` when
the line has at least three comma fields and the third is a size; otherwise
free-order parsing. Returns `(name, number, qty, size)`. -/
def parse_line_smart (line : Str) : Except Str (Str × Str × Nat × Str) :=
  let raw := (strip line).filter (· ≠ '\uFEFF')
  if raw.isEmpty then .error (['L','i','n','h','a',' ','v','a','z','i','a','.'])
  else
    let comma_parts := (splitOn ',' raw).map strip
    let positional : Option (Str × Str × Nat × Str) :=
      if 3 ≤ comma_parts.length then
        let name := comma_parts.getD 0 []
        let number_raw := comma_parts.getD 1 []
        let size_candidate := upper (strip (comma_parts.getD 2 []))
        if is_size_token size_candidate then
          some (upper name, normalize_number number_raw, 1, size_candidate)
        else
          match qtyDashLetters size_candidate with
          | some (ds, ls) =>
            if is_size_token (upper ls) then
              some (upper name, normalize_number number_raw, natOfDigits ds, upper ls)
            else
              match qtyGluedLetters size_candidate with
              | some (ds', ls') =>
                if is_size_token (upper ls') then
                  some (upper name, normalize_number number_raw, natOfDigits ds', upper ls')
                else none
              | none => none
          | none =>
            match qtyGluedLetters size_candidate with
            | some (ds', ls') =>
              if is_size_token (upper ls') then
                some (upper name, normalize_number number_raw, natOfDigits ds', upper ls')
              else none
            | none => none
      else none
    match positional with
    | some r => .ok r
    | none =>
      let tokens := tokenize_line raw
      if tokens.isEmpty then .error (['L','i','n','h','a',' ','v','a','z','i','a','.'])
      else
        match extract_qty_and_size tokens with
        | .error e => .error e
        | .ok (qty, size, rest) =>
          let p := extract_number rest
          let name := upper (strip (joinSep ' ' p.2))
          .ok (name, p.1, qty, upper size)

/-- The JSON order record built by `make_order` of PXList.py. -/
structure Order where
  Name : Str
  Nickname : Str
  Number : Str
  BloodType : Str
  Gender : Str
  ShortSleeve : Str
  LongSleeve : Str
  Short : Str
  Pants : Str
  Tanktop : Str
  Vest : Str
deriving DecidableEq

/-- `make_order` of PXList.py: gender is `FE` when the size contains `BL`,
`MA` otherwise; the single garment slot is `ShortSleeve = "qty-SIZE"`. -/
def make_order (name number : Str) (qty : Nat) (size : Str) : Order :=
  { Name := upper name
    Nickname := []
    Number := number
    BloodType := []
    Gender := if hasSub ['B','L'] (upper size) then ['F','E'] else ['M','A']
    ShortSleeve := natStr qty ++ '-' :: upper size
    LongSleeve := []
    Short := []
    Pants := []
    Tanktop := []
    Vest := [] }

/-- The per-line loop of `convert_text_to_json` / `convert_txt_to_json`:
failing lines are counted as skipped and the loop continues. -/
def convertLines : List Str → (List Order × Nat)
  | [] => ([], 0)
  | l :: ls =>
    let raw := strip l
    if raw.isEmpty then convertLines ls
    else
      match parse_line_smart raw with
      | .error _ =>
        let p := convertLines ls
        (p.1, p.2 + 1)
      | .ok (n, num, q, sz) =>
        let p := convertLines ls
        (make_order n num q sz :: p.1, p.2)

/-- The order contributed by a single line of `convert_text_to_json`
(`none` for a blank or skipped line). -/
def lineOrder (l : Str) : Option Order :=
  if (strip l).isEmpty then none
  else
    match parse_line_smart (strip l) with
    | .ok (n, num, q, sz) => some (make_order n num q sz)
    | .error _ => none

/-- Does a line of `convert_text_to_json` get counted as skipped? -/
def lineSkips (l : Str) : Bool :=
  !(strip l).isEmpty && !(exOk (parse_line_smart (strip l)))

/-- `convert_text_to_json` up to file output: the orders and skip count of the
text (the JSON file writing itself is I/O plumbing outside the core). -/
def convert_text_to_json (text : Str) : List Order × Nat :=
  convertLines (splitlines text)

end PXList

namespace PXListPlus

open Py

/-- `ADULT_SIZES` of PXListPlus.py (same as PXTotaList). -/
def ADULT_SIZES : List Str := PXTotaList.ADULT_SIZES

/-- `CHILD_SIZE_RE = ^(?:[2-9]|1[0-2])A$` (case-insensitive). -/
def is_child_size (s : Str) : Bool := PXTotaList.is_child_size s

def is_adult_size (s : Str) : Bool := s ∈ ADULT_SIZES

/-- `is_babylook_size`: `BL` + adult size. -/
def is_babylook_size (s : Str) : Bool :=
  let u := upper s
  startsWith ['B','L'] u && is_adult_size (u.drop 2)

def validCode (s : Str) : Bool := is_adult_size s || is_child_size s || is_babylook_size s

/-- `QTY_SIZE_RE = ^\s*(\d+)\s*-\s*([A-Za-z0-9]+)\s*$`. -/
def qtySizeGroups (s : Str) : Option (Str × Str) := PXTotaList.qtySizeGroups s

/-- `normalize_spaces`: collapse whitespace runs to single spaces and strip. -/
def normalize_spaces (s : Str) : Str :=
  joinSep ' ' ((splitOnPred isWS s).filter (· ≠ []))

/-- `normalize_name`. -/
def normalize_name (s : Str) : Str := upper (normalize_spaces s)

/-- `clean_token`. -/
def clean_token (s : Str) : Str := strip s

/-- `FORBIDDEN_QUOTE_RE.search(tok)` on a non-empty token. -/
def hasQuote (tok : Str) : Bool :=
  !tok.isEmpty && (tok.any fun c => c = '"' || c = '\'')

/-- `is_size_token` of PXListPlus.py. -/
def is_size_token (tok : Str) : Bool :=
  let t := upper (clean_token tok)
  if t.isEmpty then false
  else if validCode t then true
  else
    match qtySizeGroups t with
    | some (_, al) => validCode (upper (strip al))
    | none => false

/-- `normalize_size_token` of PXListPlus.py: always `QTY-SIZE`, error on a
zero quantity or invalid size (messages carry the line number). -/
def normalize_size_token (tok : Str) (lineNo : Nat) : Except Str Str :=
  let t := upper (clean_token tok)
  if t.isEmpty then
    .error (("Linha ".data) ++ natStr lineNo ++ (": tamanho vazio.".data))
  else
    match qtySizeGroups t with
    | some (ds, al) =>
      let qty := natOfDigits ds
      let size := upper (strip al)
      if qty = 0 then
        .error (("Linha ".data) ++ natStr lineNo ++ (": quantidade invalida em ".data) ++ tok)
      else if !validCode size then
        .error (("Linha ".data) ++ natStr lineNo ++ (": tamanho invalido em ".data) ++ tok)
      else .ok (natStr qty ++ '-' :: size)
    | none =>
      if !validCode t then
        .error (("Linha ".data) ++ natStr lineNo ++ (": tamanho invalido em ".data) ++ tok)
      else .ok ('1' :: '-' :: t)

/-- The `_size` local of `detect_gender_from_sizes` of PXListPlus.py: the part
after the first dash of a `QTY-SIZE` entry (the whole entry when it has no
dash), uppercased. -/
def sizePart (s : Str) : Str :=
  match splitOnce '-' s with
  | some p => upper p.2
  | none => upper s

/-- The gender decision of `detect_gender_from_sizes` over the per-entry size
parts: error when child and babylook sizes occur together. -/
def detect_gender_from_sizes (sizes : List Str) (lineNo : Nat) : Except Str Str :=
  let hasChild := sizes.any fun s =>
    ((sizePart s).getLast? = some 'A') && is_child_size (sizePart s)
  let hasBL := sizes.any fun s => hasSub ['B','L'] (sizePart s)
  if hasChild && hasBL then
    .error (("Linha ".data) ++ natStr lineNo ++
      (": divergencia (infantil + babylook na mesma linha).".data))
  else if hasChild then .ok (['C'])
  else if hasBL then .ok (['F','E'])
  else .ok (['M','A'])

/-- The record produced by `parse_line_dynamic`. -/
structure PRec where
  name : Str
  number : Str
  sizes : List Str
  nickname : Str
  blood : Str
deriving DecidableEq

/-- State of the classification loop of `parse_line_dynamic`. -/
structure PSt where
  name : Str
  number : Str
  sizes : List Str
  extras : List Str
deriving DecidableEq

/-- One iteration of the classification loop of `parse_line_dynamic`; size
normalization can fail. -/
def stepTok (lineNo : Nat) (st : PSt) (tok : Str) : Except Str PSt :=
  let t := clean_token tok
  if t.isEmpty then .ok st
  else
    let up := upper t
    if is_size_token up then
      (normalize_size_token up lineNo).map fun n => { st with sizes := st.sizes ++ [n] }
    else if st.number.isEmpty && hasDigit t then
      .ok { st with number := normalize_spaces t }
    else if st.name.isEmpty then .ok { st with name := normalize_name t }
    else .ok { st with extras := st.extras ++ [upper (normalize_spaces t)] }

def loop (lineNo : Nat) : PSt → List Str → Except Str PSt
  | st, [] => .ok st
  | st, tok :: rest =>
    match stepTok lineNo st tok with
    | .error e => .error e
    | .ok st' => loop lineNo st' rest

def partsOf (raw : Str) : List Str := (splitOn ',' raw).map clean_token

/-- `parse_line_dynamic` of PXListPlus.py. -/
def parse_line_dynamic (line : Str) (lineNo : Nat) : Except Str PRec :=
  let raw := (strip line).filter (· ≠ '\uFEFF')
  if raw.isEmpty then
    .error (("Linha ".data) ++ natStr lineNo ++ (": vazia.".data))
  else
    let parts := partsOf raw
    match parts.find? hasQuote with
    | some tok =>
      .error (("Linha ".data) ++ natStr lineNo ++ (": campo contem aspas, token: ".data) ++ tok)
    | none =>
      match loop lineNo ⟨[], [], [], []⟩ parts with
      | .error e => .error e
      | .ok st =>
        .ok ⟨st.name, st.number, st.sizes, st.extras.headD [], (st.extras.drop 1).headD []⟩

/-- One line of the `verify_input` loop: parse, require 1..6 sizes, check the
gender divergence; any raised error becomes one error entry carrying the
line's content. -/
def verifyLine (idx : Nat) (line : Str) : Except Str PRec :=
  let res : Except Str PRec :=
    match parse_line_dynamic line idx with
    | .error e => .error e
    | .ok r =>
      if r.sizes.isEmpty then
        .error (("Linha ".data) ++ natStr idx ++ (": nenhum tamanho encontrado.".data))
      else if 6 < r.sizes.length then
        .error (("Linha ".data) ++ natStr idx ++ (": mais de 6 tamanhos.".data))
      else
        match detect_gender_from_sizes r.sizes idx with
        | .error e => .error e
        | .ok _ => .ok r
  match res with
  | .error e => .error (e ++ ("\n  Conteudo: ".data) ++ line)
  | .ok r => .ok r

/-- The accumulating loop of `verify_input`: every line contributes either a
parsed record or exactly one error entry, and the loop always continues. -/
def verifyLines : Nat → List Str → (List PRec × List Str)
  | _, [] => ([], [])
  | idx, l :: ls =>
    let p := verifyLines (idx + 1) ls
    match verifyLine idx l with
    | .ok r => (r :: p.1, p.2)
    | .error e => (p.1, e :: p.2)

/-- The record contributed by one verified line (`none` when it errors). -/
def vOk (p : Nat × Str) : Option PRec := (verifyLine p.1 p.2).toOption

/-- The error entry contributed by one verified line (`none` when it is ok). -/
def vErr (p : Nat × Str) : Option Str := exErr (verifyLine p.1 p.2)

end PXListPlus

namespace PXSortLite

open Py

/-- `VALID_SIZES` of PXSortLite.py (char-identical to the PXListLite set). -/
def VALID_SIZES : List Str := PXListLite.VALID_SIZES

/-- `SEP = "\\\\"` (two backslashes). -/
def SEP : Str := ['\\', '\\']

@[ext]
structure Item where
  name : Str
  number : Str
deriving DecidableEq

/-- `_clean_token` of PXSortLite.py: strip, remove one layer of matching
quotes, strip again. -/
def clean_token (s : Str) : Str :=
  let t := strip s
  if (t.head? = some '"' && t.getLast? = some '"')
      || (t.head? = some '\'' && t.getLast? = some '\'') then
    strip (t.drop 1).dropLast
  else t

/-- `_normalize`: collapse whitespace runs, strip, uppercase. -/
def normalize (s : Str) : Str :=
  upper (joinSep ' ' ((splitOnPred isWS s).filter (· ≠ [])))

/-- The non-empty cleaned comma tokens of a line. -/
def partsOf (raw : Str) : List Str :=
  ((splitOn ',' raw).map clean_token).filter (· ≠ [])

/-- The first token (in order) that uppercases to a valid size, together with
the remaining tokens. -/
def findFirstSize : List Str → Option (Str × List Str)
  | [] => none
  | p :: rest =>
    let up := upper p
    if up ∈ VALID_SIZES then some (up, rest)
    else (findFirstSize rest).map fun q => (q.1, p :: q.2)

/-- The LAST all-digit token together with the other tokens (the backwards
search `for i in range(len(remaining)-1, -1, -1)` of the source). -/
def splitLastDigit : List Str → Option (Str × List Str)
  | [] => none
  | tok :: rest =>
    match splitLastDigit rest with
    | some (n, ns) => some (n, tok :: ns)
    | none => if isdigit tok then some (tok, rest) else none

/-- `parse_line` of PXSortLite.py (and, char-identical, of Legado/PXSort.py):
first valid size anywhere becomes the bucket key, the LAST numeric token the
number, everything else joins into the name. -/
def parse_line (line : Str) : Option (Str × Item) :=
  let raw := strip line
  if raw.isEmpty then none
  else
    let parts := partsOf raw
    if parts.isEmpty then none
    else
      match findFirstSize parts with
      | none => none
      | some (size_val, remaining) =>
        if remaining.isEmpty then none
        else
          let nn :=
            match splitLastDigit remaining with
            | some (n, ns) => (n, ns)
            | none => ([], remaining)
          let name := normalize (joinSep ' ' nn.2)
          let number := normalize nn.1
          if name.isEmpty then none else some (size_val, ⟨name, number⟩)

/-- `sort_key`: Python tuple comparison on `(name, number)`. -/
def itemLe (a b : Item) : Prop := pairLeB (a.name, a.number) (b.name, b.number) = true

instance : DecidableRel itemLe := fun _ _ => inferInstanceAs (Decidable (_ = true))

/-- Lexicographic order on bucket keys (`sorted(buckets.keys())`). -/
def keyLe (a b : Str) : Prop := strLeB a b = true

instance : DecidableRel keyLe := fun _ _ => inferInstanceAs (Decidable (_ = true))

/-- `buckets.setdefault(size, []).append(item)` on an insertion-ordered
association list (the model of a Python dict). -/
def addToBucket : List (Str × List Item) → Str → Item → List (Str × List Item)
  | [], s, it => [(s, [it])]
  | (k, v) :: rest, s, it =>
    if k = s then (k, v ++ [it]) :: rest
    else (k, v) :: addToBucket rest s it

/-- Association-list lookup for buckets. -/
def lookupB (s : Str) : List (Str × List Item) → Option (List Item)
  | [] => none
  | (k, v) :: rest => if k = s then some v else lookupB s rest

/-- The `(size, item)` pairs successfully parsed from a text, in line order. -/
def parsedOf (text : Str) : List (Str × Item) :=
  (splitlines text).filterMap parse_line

/-- The bucket dict after the reading loop, before any sorting. -/
def rawBuckets (text : Str) : List (Str × List Item) :=
  (parsedOf text).foldl (fun bs p => addToBucket bs p.1 p.2) []

/-- The non-empty lines that parse to nothing (`ignored`). -/
def ignoredOf (text : Str) : List Str :=
  (splitlines text).filter fun l => !(strip l).isEmpty && (parse_line l).isNone

/-- `buckets[s] = sorted(buckets[s], key=sort_key)` for every key. -/
def sortBuckets (bs : List (Str × List Item)) : List (Str × List Item) :=
  bs.map fun p => (p.1, List.insertionSort itemLe p.2)

/-- The output sections of `process_text`: bucket keys sorted
lexicographically, each section carrying its sorted items. -/
def process_sections (text : Str) : List (Str × List Item) :=
  let bs := sortBuckets (rawBuckets text)
  (List.insertionSort keyLe (bs.map Prod.fst)).map fun s => (s, (lookupB s bs).getD [])

/-- `process_text` of PXSortLite.py: the grouped output text and the ignored
lines. -/
def process_text (text : Str) : Str × List Str :=
  let out_lines := (process_sections text).flatMap fun sec =>
    ('[' :: sec.1 ++ [']']) :: (sec.2.map fun it => it.name ++ SEP ++ it.number) ++ [[]]
  (strip (joinSep '\n' out_lines), ignoredOf text)

end PXSortLite

namespace PXSort

open Py

/-- `parse_line` of Legado/PXSort.py is char-for-char the PXSortLite parser
(same `VALID_SIZES`, `_clean_token`, `_normalize_text`, `_looks_like_number`,
same loops), so it is embedded once and reused here. -/
def parse_line (line : Str) : Option (Str × PXSortLite.Item) := PXSortLite.parse_line line

/-- `build_buckets` of Legado/PXSort.py: the per-size buckets, each sorted by
`sort_key`, plus the ignored lines. -/
def build_buckets (text : Str) : List (Str × List PXSortLite.Item) × List Str :=
  (PXSortLite.sortBuckets (PXSortLite.rawBuckets text), PXSortLite.ignoredOf text)

end PXSort

namespace Jarvis

open Py

inductive FieldKey where
  | Name | Number | ShortSleeve | LongSleeve | Short | Pants | Tanktop | Vest
  | Nickname | BloodType
deriving DecidableEq

/-- `FIELD_ORDER` of Jarvis.py. -/
def FIELD_ORDER : List FieldKey :=
  [.Name, .Number, .ShortSleeve, .LongSleeve, .Short, .Pants, .Tanktop, .Vest,
   .Nickname, .BloodType]

/-- `MANDATORY_FIELDS`. -/
def MANDATORY_FIELDS : List FieldKey := [.Name, .Number]

/-- One entry of the `orders` list of the input JSON. -/
structure JOrder where
  Name : Str
  Number : Str
  ShortSleeve : Str
  LongSleeve : Str
  Short : Str
  Pants : Str
  Tanktop : Str
  Vest : Str
  Nickname : Str
  BloodType : Str
deriving DecidableEq

def getField (e : JOrder) : FieldKey → Str
  | .Name => e.Name
  | .Number => e.Number
  | .ShortSleeve => e.ShortSleeve
  | .LongSleeve => e.LongSleeve
  | .Short => e.Short
  | .Pants => e.Pants
  | .Tanktop => e.Tanktop
  | .Vest => e.Vest
  | .Nickname => e.Nickname
  | .BloodType => e.BloodType

/-- `normalize_str`: drop `\r`, turn `\n` into spaces, strip. -/
def normalize_str (s : Str) : Str :=
  strip ((s.filter (· ≠ '\r')).map fun c => if c = '\n' then ' ' else c)

/-- `decide_effective_fields`: mandatory columns plus every optional column
that is non-empty in some order. -/
def decide_effective_fields (orders : List JOrder) : List FieldKey :=
  FIELD_ORDER.filter fun k =>
    k ∈ MANDATORY_FIELDS || orders.any fun e => !(normalize_str (getField e k)).isEmpty

/-- `re.match(r"^(\d+)-(.+)$", val)`: a non-empty leading digit run, a dash,
and a non-empty remainder (values reaching this regex have been through
`normalize_str`, so they contain no newline and the `.`/`$` newline quirks of
the Python regex cannot fire). -/
def matchQtyDash (s : Str) : Option (Nat × Str) :=
  let ds := s.takeWhile isDigitChar
  if ds.isEmpty then none
  else
    match s.drop ds.length with
    | '-' :: rest => if rest.isEmpty then none else some (natOfDigits ds, rest)
    | _ => none

/-- Index, quantity and bare remainder of the first qty-dash field of a row. -/
def firstQtyDashIdx : List Str → Option (Nat × Nat × Str)
  | [] => none
  | v :: vs =>
    match matchQtyDash v with
    | some (q, b) => some (0, q, b)
    | none => (firstQtyDashIdx vs).map fun p => (p.1 + 1, p.2.1, p.2.2)

/-- The expansion of one row inside `format_lines`: the first qty-dash field
is rewritten to its bare remainder and the row is replicated `qty` times;
rows with no such field pass through as one line. -/
def format_row (row : List Str) : List Str :=
  match firstQtyDashIdx row with
  | some (i, q, b) => List.replicate q (joinSep ',' (row.set i b))
  | none => [joinSep ',' row]

/-- The value row of one order under an effective-field list. -/
def rowOf (eff : List FieldKey) (e : JOrder) : List Str :=
  eff.map fun k => normalize_str (getField e k)

/-- `format_lines` of Jarvis.py: the emitted lines and the effective fields. -/
def format_lines (orders : List JOrder) : List Str × List FieldKey :=
  let eff := decide_effective_fields orders
  (orders.flatMap fun e => format_row (rowOf eff e), eff)

end Jarvis

namespace Py

/-! ### Character-level facts about `upChar`, `isWS`, `isDigitChar` -/

theorem char_ofNat_toNat {n : Nat} (h : n < 55296) : (Char.ofNat n).toNat = n := by
  simp only [Char.ofNat, Nat.isValidChar, Char.toNat, Char.ofNatAux]
  rw [dif_pos (Or.inl h)]
  simp [UInt32.toNat, BitVec.toNat_ofNat]

theorem char_eq_iff_toNat {a b : Char} : a = b ↔ a.toNat = b.toNat :=
  ⟨fun h => by rw [h], fun h => Char.ext (UInt32.toNat.inj h)⟩

theorem char_le_iff_toNat {a b : Char} : a ≤ b ↔ a.toNat ≤ b.toNat := by
  rw [Char.le_def, UInt32.le_def]
  rfl

theorem upChar_of_not_lower {c : Char} (h : ('a' ≤ c && c ≤ 'z') = false) :
    upChar c = c := by
  simp [upChar, h]

theorem toNat_upChar_lower {c : Char} (h : ('a' ≤ c && c ≤ 'z') = true) :
    (upChar c).toNat = c.toNat - 32 ∧ 97 ≤ c.toNat ∧ c.toNat ≤ 122 := by
  have h1 : 'a' ≤ c := by
    have := (Bool.and_eq_true _ _).mp h
    exact of_decide_eq_true this.1
  have h2 : c ≤ 'z' := by
    have := (Bool.and_eq_true _ _).mp h
    exact of_decide_eq_true this.2
  have ha : (97 : Nat) ≤ c.toNat := char_le_iff_toNat.mp h1
  have hz : c.toNat ≤ 122 := char_le_iff_toNat.mp h2
  refine ⟨?_, ha, hz⟩
  simp only [upChar, h, if_true]
  exact char_ofNat_toNat (by omega)

theorem toNat_upChar_lower_range {c : Char} (h : ('a' ≤ c && c ≤ 'z') = true) :
    65 ≤ (upChar c).toNat ∧ (upChar c).toNat ≤ 90 := by
  obtain ⟨he, ha, hz⟩ := toNat_upChar_lower h
  omega

theorem upChar_upChar (c : Char) : upChar (upChar c) = upChar c := by
  cases h : ('a' ≤ c && c ≤ 'z') with
  | false => rw [upChar_of_not_lower h, upChar_of_not_lower h]
  | true =>
    apply upChar_of_not_lower
    obtain ⟨h65, h90⟩ := toNat_upChar_lower_range h
    cases hh : ('a' ≤ upChar c && upChar c ≤ 'z') with
    | false => rfl
    | true =>
      have := (char_le_iff_toNat.mp (of_decide_eq_true ((Bool.and_eq_true _ _).mp hh).1))
      have : (97 : Nat) ≤ (upChar c).toNat := this
      omega

theorem isWS_false_of_ge {c : Char} (h65 : 65 ≤ c.toNat) : isWS c = false := by
  have hsp : (' ' : Char).toNat = 32 := rfl
  have ht : ('\t' : Char).toNat = 9 := rfl
  have hn : ('\n' : Char).toNat = 10 := rfl
  have hr : ('\r' : Char).toNat = 13 := rfl
  have hb : ('\x0b' : Char).toNat = 11 := rfl
  have hc12 : ('\x0c' : Char).toNat = 12 := rfl
  simp only [isWS, Bool.or_eq_false_iff, decide_eq_false_iff_not]
  refine ⟨⟨⟨⟨⟨?_, ?_⟩, ?_⟩, ?_⟩, ?_⟩, ?_⟩ <;>
    (intro hc; rw [char_eq_iff_toNat] at hc; omega)

theorem isWS_upChar (c : Char) : isWS (upChar c) = isWS c := by
  cases h : ('a' ≤ c && c ≤ 'z') with
  | false => rw [upChar_of_not_lower h]
  | true =>
    obtain ⟨he, ha, hz⟩ := toNat_upChar_lower h
    obtain ⟨h65, h90⟩ := toNat_upChar_lower_range h
    rw [isWS_false_of_ge h65, isWS_false_of_ge (by omega)]

theorem isDigitChar_upChar (c : Char) : isDigitChar (upChar c) = isDigitChar c := by
  cases h : ('a' ≤ c && c ≤ 'z') with
  | false => rw [upChar_of_not_lower h]
  | true =>
    obtain ⟨he, ha, hz⟩ := toNat_upChar_lower h
    obtain ⟨h65, h90⟩ := toNat_upChar_lower_range h
    have d1 : isDigitChar (upChar c) = false := by
      simp only [isDigitChar, Bool.and_eq_false_iff, decide_eq_false_iff_not]
      right
      intro hc
      have := char_le_iff_toNat.mp hc
      have h9 : ('9' : Char).toNat = 57 := rfl
      omega
    have d2 : isDigitChar c = false := by
      simp only [isDigitChar, Bool.and_eq_false_iff, decide_eq_false_iff_not]
      right
      intro hc
      have := char_le_iff_toNat.mp hc
      have h9 : ('9' : Char).toNat = 57 := rfl
      omega
    rw [d1, d2]

theorem upChar_eq_comma {c : Char} (h : upChar c = ',') : c = ',' := by
  cases hl : ('a' ≤ c && c ≤ 'z') with
  | false => rw [upChar_of_not_lower hl] at h; exact h
  | true =>
    exfalso
    obtain ⟨h65, h90⟩ := toNat_upChar_lower_range hl
    rw [char_eq_iff_toNat] at h
    have hcm : (',' : Char).toNat = 44 := rfl
    omega

/-! ### `strip` lemmas -/

theorem dropWhile_head_false {α : Type} {p : α → Bool} :
    ∀ {l : List α} {c : α} {t : List α}, List.dropWhile p l = c :: t → p c = false := by
  intro l
  induction l with
  | nil => intro c t h; simp [List.dropWhile] at h
  | cons a l ih =>
    intro c t h
    rw [List.dropWhile_cons] at h
    split at h
    · exact ih h
    · cases h; simp_all

theorem dropWhile_cons_false {α : Type} {p : α → Bool} {c : α} {t : List α}
    (h : p c = false) : List.dropWhile p (c :: t) = c :: t := by
  rw [List.dropWhile_cons, if_neg (by simp [h])]

theorem rstrip_pref (s : Str) : rstrip s <+: s := by
  have h := List.dropWhile_suffix (l := s.reverse) isWS
  have := List.reverse_prefix.mpr h
  simpa using this

theorem lstrip_suffix (s : Str) : lstrip s <:+ s := List.dropWhile_suffix isWS

theorem strip_sublist (s : Str) : (strip s).Sublist s :=
  ((rstrip_pref (lstrip s)).sublist).trans (lstrip_suffix s).sublist

theorem mem_strip {c : Char} {s : Str} (h : c ∈ strip s) : c ∈ s :=
  (strip_sublist s).mem h

theorem strip_head_false {s c : Str} {a : Char} (h : strip s = a :: c) : isWS a = false := by
  obtain ⟨u, hu⟩ := rstrip_pref (lstrip s)
  rw [strip] at h
  rw [h] at hu
  exact dropWhile_head_false (l := s) (by rw [lstrip] at hu; rw [← hu]; rfl)

theorem lstrip_of_strip_fixed {s : Str} (h : strip s = s) : lstrip s = s := by
  cases hs : s with
  | nil => rfl
  | cons a t =>
    have : isWS a = false := strip_head_false (by rw [h, hs])
    rw [lstrip]
    exact dropWhile_cons_false this

theorem rstrip_of_strip_fixed {s : Str} (h : strip s = s) : rstrip s = s := by
  have h1 := lstrip_of_strip_fixed h
  have : strip s = rstrip s := by rw [strip, h1]
  rw [← this, h]

theorem rstrip_eq_self_of_last {s : Str}
    (h : ∀ c, s.getLast? = some c → isWS c = false) : rstrip s = s := by
  rw [rstrip]
  cases hr : s.reverse with
  | nil =>
    have hs : s = [] := by simpa using congrArg List.reverse hr
    subst hs
    rfl
  | cons a t =>
    have ha : s.getLast? = some a := by
      rw [← List.head?_reverse, hr]; rfl
    rw [dropWhile_cons_false (h a ha), ← hr, List.reverse_reverse]

theorem strip_last_false {s : Str} {a : Char} (h : (strip s).getLast? = some a) :
    isWS a = false := by
  rw [strip, rstrip, ← List.head?_reverse, List.reverse_reverse] at h
  cases hd : List.dropWhile isWS (lstrip s).reverse with
  | nil => rw [hd] at h; simp at h
  | cons b t =>
    rw [hd] at h
    cases h
    exact dropWhile_head_false hd

theorem strip_idem (s : Str) : strip (strip s) = strip s := by
  have h1 : lstrip (strip s) = strip s := by
    cases hs : strip s with
    | nil => rfl
    | cons a t => exact dropWhile_cons_false (strip_head_false hs)
  have h2 : rstrip (strip s) = strip s := by
    apply rstrip_eq_self_of_last
    intro c hc
    exact strip_last_false hc
  rw [strip, h1, h2]

theorem strip_eq_self_iff {s : Str} :
    strip s = s ↔ ((∀ c t, s = c :: t → isWS c = false) ∧
      (∀ c, s.getLast? = some c → isWS c = false)) := by
  constructor
  · intro h
    constructor
    · intro c t hct; exact strip_head_false (by rw [h, hct])
    · intro c hc; exact strip_last_false (by rw [h]; exact hc)
  · rintro ⟨h1, h2⟩
    have hl : lstrip s = s := by
      cases hs : s with
      | nil => rfl
      | cons a t => exact dropWhile_cons_false (h1 a t hs)
    rw [strip, hl]
    exact rstrip_eq_self_of_last h2

theorem upper_upper (s : Str) : upper (upper s) = upper s := by
  simp only [upper, List.map_map]
  exact List.map_congr_left fun a _ => upChar_upChar a

theorem isWS_comp_upChar : (isWS ∘ upChar) = isWS := funext isWS_upChar

theorem lstrip_upper (s : Str) : lstrip (upper s) = upper (lstrip s) := by
  rw [lstrip, upper, List.dropWhile_map, isWS_comp_upChar]
  rfl

theorem rstrip_upper (s : Str) : rstrip (upper s) = upper (rstrip s) := by
  rw [rstrip, upper, ← List.map_reverse, List.dropWhile_map, isWS_comp_upChar,
    ← List.map_reverse]
  rfl

theorem strip_upper (s : Str) : strip (upper s) = upper (strip s) := by
  rw [strip, lstrip_upper, rstrip_upper, strip]

theorem comma_not_mem_upper {s : Str} (h : ',' ∉ s) : ',' ∉ upper s := by
  intro hc
  obtain ⟨d, hd, hud⟩ := List.mem_map.mp hc
  exact h (upChar_eq_comma hud ▸ hd)

/-! ### `splitOn` / `joinSep` lemmas -/

theorem splitOn_ne_nil (sep : Char) (s : Str) : splitOn sep s ≠ [] := by
  induction s with
  | nil => simp [splitOn]
  | cons c rest ih =>
    rw [splitOn]
    split
    · simp
    · cases h : splitOn sep rest with
      | nil => simp
      | cons a t => simp

theorem length_splitOn (sep : Char) (s : Str) :
    (splitOn sep s).length = s.count sep + 1 := by
  induction s with
  | nil => simp [splitOn]
  | cons c rest ih =>
    rw [splitOn, List.count_cons]
    split
    · simp only [List.length_cons, ih]
      have : c = sep := by assumption
      simp [this]
    · cases h : splitOn sep rest with
      | nil => exact absurd h (splitOn_ne_nil sep rest)
      | cons a t =>
        rw [h] at ih
        simp only [List.length_cons] at ih ⊢
        have : ¬c = sep := by assumption
        simp [this, beq_iff_eq]
        omega

theorem not_mem_of_mem_splitOn {sep : Char} {s p : Str}
    (hp : p ∈ splitOn sep s) : sep ∉ p := by
  induction s generalizing p with
  | nil =>
    simp [splitOn] at hp
    subst hp
    simp
  | cons c rest ih =>
    rw [splitOn] at hp
    split at hp
    · rcases List.mem_cons.mp hp with h | h
      · subst h; simp
      · exact ih h
    · rename_i hc
      cases hsp : splitOn sep rest with
      | nil => exact absurd hsp (splitOn_ne_nil sep rest)
      | cons a t =>
        rw [hsp] at hp
        rcases List.mem_cons.mp hp with h | h
        · subst h
          intro hmem
          rcases List.mem_cons.mp hmem with h' | h'
          · exact hc h'.symm
          · exact ih (hsp ▸ List.mem_cons_self a t) h'
        · exact ih (hsp ▸ List.mem_cons_of_mem a h)

theorem splitOn_single {sep : Char} {p : Str} (h : sep ∉ p) : splitOn sep p = [p] := by
  induction p with
  | nil => rfl
  | cons c rest ih =>
    have hc : ¬c = sep := fun hh => h (hh ▸ List.mem_cons_self c rest)
    have hr : sep ∉ rest := fun hh => h (List.mem_cons_of_mem c hh)
    rw [splitOn, if_neg hc, ih hr]

theorem splitOn_append {sep : Char} {p t : Str} (h : sep ∉ p) :
    splitOn sep (p ++ sep :: t) = p :: splitOn sep t := by
  induction p with
  | nil => simp [splitOn]
  | cons c rest ih =>
    have hc : ¬c = sep := fun hh => h (hh ▸ List.mem_cons_self c rest)
    have hr : sep ∉ rest := fun hh => h (List.mem_cons_of_mem c hh)
    rw [List.cons_append, splitOn, if_neg hc, ih hr]

theorem splitOn_joinSep {sep : Char} :
    ∀ {ps : List Str}, ps ≠ [] → (∀ p ∈ ps, sep ∉ p) →
      splitOn sep (joinSep sep ps) = ps := by
  intro ps
  induction ps with
  | nil => intro h; exact absurd rfl h
  | cons p rest ih =>
    intro _ hmem
    cases rest with
    | nil => exact splitOn_single (hmem p (List.mem_cons_self p []))
    | cons q t =>
      rw [joinSep, splitOn_append (hmem p (List.mem_cons_self p _))]
      rw [ih (by simp) (fun x hx => hmem x (List.mem_cons_of_mem p hx))]

theorem joinSep_head_not_ws {ps : List Str} (h : ∀ p ∈ ps, strip p = p) :
    ∀ c t, joinSep ',' ps = c :: t → isWS c = false := by
  cases ps with
  | nil => intro c t hct; simp [joinSep] at hct
  | cons p rest =>
    cases rest with
    | nil =>
      intro c t hct
      exact strip_head_false (s := p) (by rw [h p (List.mem_cons_self p [])]; exact hct)
    | cons q t' =>
      intro c t hct
      rw [joinSep] at hct
      cases hp : p with
      | nil =>
        rw [hp] at hct
        simp only [List.nil_append, List.cons.injEq] at hct
        rw [← hct.1]
        decide
      | cons a u =>
        rw [hp, List.cons_append] at hct
        have hc : c = a := (List.cons.injEq _ _ _ _).mp hct |>.1.symm
        rw [hc]
        exact strip_head_false (s := p) (by rw [h p (List.mem_cons_self p _), hp])

theorem joinSep_last_not_ws {ps : List Str} (h : ∀ p ∈ ps, strip p = p) :
    ∀ c, (joinSep ',' ps).getLast? = some c → isWS c = false := by
  induction ps with
  | nil => intro c hc; simp [joinSep] at hc
  | cons p rest ih =>
    cases rest with
    | nil =>
      intro c hc
      exact strip_last_false (s := p) (by rw [h p (List.mem_cons_self p [])]; exact hc)
    | cons q t' =>
      intro c hc
      rw [joinSep, List.getLast?_append_of_ne_nil _ (by simp)] at hc
      rw [List.getLast?_cons] at hc
      cases hj : (joinSep ',' (q :: t')).getLast? with
      | none =>
        rw [hj] at hc
        simp at hc
        rw [← hc]
        decide
      | some b =>
        rw [hj] at hc
        simp at hc
        rw [← hc]
        exact ih (fun x hx => h x (List.mem_cons_of_mem p hx)) b hj

theorem strip_joinSep {ps : List Str} (h : ∀ p ∈ ps, strip p = p) :
    strip (joinSep ',' ps) = joinSep ',' ps := by
  apply strip_eq_self_iff.mpr
  exact ⟨joinSep_head_not_ws h, joinSep_last_not_ws h⟩

/-! ### The lexicographic string and pair orders -/

theorem strLtB_irrefl : ∀ s : Str, strLtB s s = false := by
  intro s
  induction s with
  | nil => rfl
  | cons a t ih => simp [strLtB, lt_irrefl, ih]

theorem strLtB_trans :
    ∀ (a b c : Str), strLtB a b = true → strLtB b c = true → strLtB a c = true := by
  intro a
  induction a with
  | nil =>
    intro b c hab hbc
    cases b with
    | nil => simp [strLtB] at hab
    | cons y ys =>
      cases c with
      | nil => simp [strLtB] at hbc
      | cons z zs => simp [strLtB]
  | cons x xs ih =>
    intro b c hab hbc
    cases b with
    | nil => simp [strLtB] at hab
    | cons y ys =>
      cases c with
      | nil => simp [strLtB] at hbc
      | cons z zs =>
        rw [strLtB] at hab hbc ⊢
        by_cases hxy : x < y
        · by_cases hyz : y < z
          · rw [if_pos (lt_trans hxy hyz)]
          · rw [if_neg hyz] at hbc
            by_cases hzy : z < y
            · rw [if_pos hzy] at hbc; exact absurd hbc (by simp)
            · have hyzeq : y = z := le_antisymm (le_of_not_lt hzy) (le_of_not_lt hyz)
              rw [if_pos (hyzeq ▸ hxy)]
        · rw [if_neg hxy] at hab
          by_cases hyx : y < x
          · rw [if_pos hyx] at hab; exact absurd hab (by simp)
          · have hxyeq : x = y := le_antisymm (le_of_not_lt hyx) (le_of_not_lt hxy)
            subst hxyeq
            rw [if_neg (lt_irrefl x)] at hab
            by_cases hxz : x < z
            · rw [if_pos hxz]
            · rw [if_neg hxz] at hbc ⊢
              by_cases hzx : z < x
              · rw [if_pos hzx] at hbc; exact absurd hbc (by simp)
              · rw [if_neg hzx] at hbc ⊢
                exact ih ys zs hab hbc

theorem strLtB_eq_of_not :
    ∀ (a b : Str), strLtB a b = false → strLtB b a = false → a = b := by
  intro a
  induction a with
  | nil =>
    intro b hab _
    cases b with
    | nil => rfl
    | cons y ys => simp [strLtB] at hab
  | cons x xs ih =>
    intro b hab hba
    cases b with
    | nil => simp [strLtB] at hba
    | cons y ys =>
      rw [strLtB] at hab hba
      by_cases hxy : x < y
      · rw [if_pos hxy] at hab; exact absurd hab (by simp)
      · rw [if_neg hxy] at hab
        by_cases hyx : y < x
        · rw [if_pos hyx] at hba; exact absurd hba (by simp)
        · have hxyeq : x = y := le_antisymm (le_of_not_lt hyx) (le_of_not_lt hxy)
          subst hxyeq
          rw [if_neg (lt_irrefl x)] at hab
          rw [if_neg (lt_irrefl x), if_neg (lt_irrefl x)] at hba
          rw [ih ys hab hba]

theorem strLeB_total (a b : Str) : strLeB a b = true ∨ strLeB b a = true := by
  by_cases h : strLtB b a = true
  · right
    rw [strLeB]
    by_cases h2 : strLtB a b = true
    · exfalso
      have := strLtB_trans a b a h2 h
      rw [strLtB_irrefl] at this
      cases this
    · simp [Bool.not_eq_true] at h2
      rw [h2]
      rfl
  · left
    rw [strLeB]
    simp [Bool.not_eq_true] at h
    rw [h]
    rfl

theorem strLeB_trans {a b c : Str}
    (h1 : strLeB a b = true) (h2 : strLeB b c = true) : strLeB a c = true := by
  rw [strLeB] at h1 h2 ⊢
  simp only [Bool.not_eq_true'] at h1 h2 ⊢
  by_cases hca : strLtB c a = true
  · exfalso
    by_cases hbc : strLtB b c = true
    · have := strLtB_trans b c a hbc hca
      rw [h1] at this
      cases this
    · simp [Bool.not_eq_true] at hbc
      have := strLtB_eq_of_not b c hbc h2
      subst this
      rw [h1] at hca
      cases hca
  · simp [Bool.not_eq_true] at hca
    exact hca

theorem pairLeB_iff {a b : Str × Str} :
    pairLeB a b = true ↔
      (strLtB a.1 b.1 = true ∨ (a.1 = b.1 ∧ strLeB a.2 b.2 = true)) := by
  rw [pairLeB]
  split
  · simp_all
  · split
    · simp_all
    · simp_all

theorem pairLeB_total (a b : Str × Str) : pairLeB a b = true ∨ pairLeB b a = true := by
  by_cases h1 : strLtB a.1 b.1 = true
  · exact Or.inl (pairLeB_iff.mpr (Or.inl h1))
  · by_cases h2 : strLtB b.1 a.1 = true
    · exact Or.inr (pairLeB_iff.mpr (Or.inl h2))
    · simp [Bool.not_eq_true] at h1 h2
      have heq := strLtB_eq_of_not a.1 b.1 h1 h2
      rcases strLeB_total a.2 b.2 with h | h
      · exact Or.inl (pairLeB_iff.mpr (Or.inr ⟨heq, h⟩))
      · exact Or.inr (pairLeB_iff.mpr (Or.inr ⟨heq.symm, h⟩))

theorem pairLeB_trans {a b c : Str × Str}
    (h1 : pairLeB a b = true) (h2 : pairLeB b c = true) : pairLeB a c = true := by
  rcases pairLeB_iff.mp h1 with hl1 | ⟨he1, hs1⟩
  · rcases pairLeB_iff.mp h2 with hl2 | ⟨he2, _⟩
    · exact pairLeB_iff.mpr (Or.inl (strLtB_trans _ _ _ hl1 hl2))
    · exact pairLeB_iff.mpr (Or.inl (he2 ▸ hl1))
  · rcases pairLeB_iff.mp h2 with hl2 | ⟨he2, hs2⟩
    · exact pairLeB_iff.mpr (Or.inl (he1 ▸ hl2))
    · exact pairLeB_iff.mpr (Or.inr ⟨he1.trans he2, strLeB_trans hs1 hs2⟩)

end Py

section OrderInstances

open Py

instance : IsTotal PXSortLite.Item PXSortLite.itemLe :=
  ⟨fun a b => pairLeB_total (a.name, a.number) (b.name, b.number)⟩

instance : IsTrans PXSortLite.Item PXSortLite.itemLe :=
  ⟨fun _ _ _ h1 h2 => pairLeB_trans h1 h2⟩

instance : IsTotal Str PXSortLite.keyLe := ⟨fun a b => by
  rcases strLeB_total a b with h | h
  · exact Or.inl h
  · exact Or.inr h⟩

instance : IsTrans Str PXSortLite.keyLe := ⟨fun _ _ _ h1 h2 => strLeB_trans h1 h2⟩

end OrderInstances

namespace Jarvis

open Py

theorem takeWhile_all_append {p : Char → Bool} :
    ∀ {ds : Str} {x : Char} {rest : Str}, (∀ c ∈ ds, p c = true) → p x = false →
      (ds ++ x :: rest).takeWhile p = ds := by
  intro ds
  induction ds with
  | nil =>
    intro x rest _ hx
    simp [List.takeWhile, hx]
  | cons d t ih =>
    intro x rest hall hx
    rw [List.cons_append, List.takeWhile_cons, hall d (List.mem_cons_self d t)]
    rw [ih (fun c hc => hall c (List.mem_cons_of_mem d hc)) hx]
    simp

theorem matchQtyDash_concat {ds rest : Str} (h1 : ds ≠ [])
    (h2 : ∀ c ∈ ds, isDigitChar c = true) (h3 : rest ≠ []) :
    matchQtyDash (ds ++ '-' :: rest) = some (natOfDigits ds, rest) := by
  have htake : (ds ++ '-' :: rest).takeWhile isDigitChar = ds :=
    takeWhile_all_append h2 (by decide)
  rw [matchQtyDash]
  simp only [htake]
  rw [if_neg (by simpa using h1), List.drop_left]
  simp [h3]

theorem firstQtyDash_append {pre : List Str} {v : Str} {post : List Str} {q : Nat} {b : Str}
    (hpre : ∀ u ∈ pre, matchQtyDash u = none) (hv : matchQtyDash v = some (q, b)) :
    firstQtyDashIdx (pre ++ v :: post) = some (pre.length, q, b) := by
  induction pre with
  | nil => simp [firstQtyDashIdx, hv]
  | cons u us ih =>
    rw [List.cons_append, firstQtyDashIdx, hpre u (List.mem_cons_self u us)]
    rw [ih (fun x hx => hpre x (List.mem_cons_of_mem u hx))]
    rfl

theorem firstQtyDash_none {row : List Str} (h : ∀ v ∈ row, matchQtyDash v = none) :
    firstQtyDashIdx row = none := by
  induction row with
  | nil => rfl
  | cons v vs ih =>
    rw [firstQtyDashIdx, h v (List.mem_cons_self v vs)]
    rw [ih (fun x hx => h x (List.mem_cons_of_mem v hx))]
    rfl

theorem set_length_append (pre : List Str) (v b : Str) (post : List Str) :
    (pre ++ v :: post).set pre.length b = pre ++ b :: post := by
  induction pre with
  | nil => rfl
  | cons u us ih => simp [List.set, ih]

theorem format_row_first {pre : List Str} {v : Str} {post : List Str} {q : Nat} {b : Str}
    (hpre : ∀ u ∈ pre, matchQtyDash u = none) (hv : matchQtyDash v = some (q, b)) :
    format_row (pre ++ v :: post) = List.replicate q (joinSep ',' (pre ++ b :: post)) := by
  rw [format_row, firstQtyDash_append hpre hv]
  dsimp only
  rw [set_length_append]

theorem format_row_unmatched {row : List Str} (h : ∀ v ∈ row, matchQtyDash v = none) :
    format_row row = [joinSep ',' row] := by
  rw [format_row, firstQtyDash_none h]

end Jarvis

/-- C7: in `Jarvis.format_lines`, quantity expansion touches at most one
field — the first field (in column order) matching the qty-dash pattern
`{digits}-{rest}` — and produces exactly `qty` copies of the row with that
field rewritten to the bare remainder; a row whose size field is `"2-M"`
expands to exactly two lines carrying `"M"`, and a row with no matching field
passes through as exactly one unmodified line. -/
theorem C7_expansion :
    (∀ ds rest : Str, ds ≠ [] → (∀ c ∈ ds, Py.isDigitChar c = true) → rest ≠ [] →
      Jarvis.matchQtyDash (ds ++ '-' :: rest) = some (Py.natOfDigits ds, rest))
    ∧ (∀ (pre : List Str) (v : Str) (post : List Str) (q : Nat) (b : Str),
        (∀ u ∈ pre, Jarvis.matchQtyDash u = none) → Jarvis.matchQtyDash v = some (q, b) →
        Jarvis.format_row (pre ++ v :: post) =
          List.replicate q (Py.joinSep ',' (pre ++ b :: post)))
    ∧ (∀ row : List Str, (∀ v ∈ row, Jarvis.matchQtyDash v = none) →
        Jarvis.format_row row = [Py.joinSep ',' row])
    ∧ Jarvis.format_row [("ANA".data), ("10".data), ("2-M".data)] =
        [("ANA,10,M".data), ("ANA,10,M".data)]
    ∧ (∀ orders : List Jarvis.JOrder,
        (Jarvis.format_lines orders).1 = orders.flatMap fun e =>
          Jarvis.format_row (Jarvis.rowOf (Jarvis.decide_effective_fields orders) e)) :=
  ⟨fun _ _ h1 h2 h3 => Jarvis.matchQtyDash_concat h1 h2 h3,
   fun _ _ _ _ _ hpre hv => Jarvis.format_row_first hpre hv,
   fun _ h => Jarvis.format_row_unmatched h,
   by decide,
   fun _ => rfl⟩

/-- Witness for C7: the expansion equation applied at the concrete row
`["ANA", "10", "2-M"]`, discharging the first-match hypotheses. -/
theorem C7_expansion_witness :
    Jarvis.format_row ([("ANA".data), ("10".data)] ++ ("2-M".data) :: []) =
      List.replicate 2 (Py.joinSep ',' ([("ANA".data), ("10".data)] ++ ("M".data) :: [])) :=
  C7_expansion.2.1 [("ANA".data), ("10".data)] ("2-M".data) [] 2 ("M".data)
    (by decide) (by decide)

/-- C10: a record whose first qty-dash-shaped field carries quantity 0 (such
as `"0-M"`) is silently dropped by `Jarvis.format_lines`: the expansion loop
produces `range(0)` copies, i.e. zero output rows, with no error. -/
theorem C10_zero_qty :
    (∀ (pre : List Str) (v : Str) (post : List Str) (b : Str),
      (∀ u ∈ pre, Jarvis.matchQtyDash u = none) → Jarvis.matchQtyDash v = some (0, b) →
      Jarvis.format_row (pre ++ v :: post) = [])
    ∧ Jarvis.format_lines
        [⟨("ANA".data), ("10".data), ("0-M".data), [], [], [], [], [], [], []⟩] =
        ([], [.Name, .Number, .ShortSleeve]) := by
  constructor
  · intro pre v post b hpre hv
    rw [Jarvis.format_row_first hpre hv]
    rfl
  · decide

/-- Witness for C10: the zero-quantity drop applied at a concrete row. -/
theorem C10_zero_qty_witness :
    Jarvis.format_row ([("ANA".data), ("10".data)] ++ ("0-M".data) :: []) = [] :=
  C10_zero_qty.1 [("ANA".data), ("10".data)] ("0-M".data) [] ("M".data)
    (by decide) (by decide)

namespace Py

theorem not_mem_splitOnPred {p : Char → Bool} {s piece : Str}
    (hp : piece ∈ splitOnPred p s) : ∀ c ∈ piece, p c = false := by
  induction s generalizing piece with
  | nil =>
    simp [splitOnPred] at hp
    subst hp
    simp
  | cons c rest ih =>
    rw [splitOnPred] at hp
    split at hp
    · rcases List.mem_cons.mp hp with h | h
      · subst h; simp
      · exact ih h
    · rename_i hc
      cases hsp : splitOnPred p rest with
      | nil =>
        rw [hsp] at hp
        rcases List.mem_cons.mp hp with h | h
        · subst h
          intro x hx
          rcases List.mem_cons.mp hx with h' | h'
          · subst h'; simpa using hc
          · simp at h'
        · simp at h
      | cons a t =>
        rw [hsp] at hp
        rcases List.mem_cons.mp hp with h | h
        · subst h
          intro x hx
          rcases List.mem_cons.mp hx with h' | h'
          · subst h'; simpa using hc
          · exact ih (hsp ▸ List.mem_cons_self a t) x h'
        · exact ih (hsp ▸ List.mem_cons_of_mem a h)

theorem splitOnPred_single {p : Char → Bool} {s : Str} (h : ∀ c ∈ s, p c = false) :
    splitOnPred p s = [s] := by
  induction s with
  | nil => rfl
  | cons c rest ih =>
    rw [splitOnPred, if_neg (by simp [h c (List.mem_cons_self c rest)])]
    rw [ih (fun x hx => h x (List.mem_cons_of_mem c hx))]

theorem splitOnPred_ne_nil (p : Char → Bool) (s : Str) : splitOnPred p s ≠ [] := by
  induction s with
  | nil => simp [splitOnPred]
  | cons c rest ih =>
    rw [splitOnPred]
    split
    · simp
    · cases h : splitOnPred p rest with
      | nil => simp
      | cons a t => simp

end Py

/-- C6: counterexample — `PXList.tokenize_line` splits on commas AND
whitespace and DROPS empty positions, so `tokenize_line("a,,b")` has two
tokens, not the three the claim requires. -/
theorem C6_tokenize_counterexample :
    PXList.tokenize_line ("a,,b".data) = [("a".data), ("b".data)]
    ∧ (PXList.tokenize_line ("a,,b".data)).length = 2 := by
  constructor <;> decide

/-- C6 (amended): comma splitting in PXListLite / PXTotaList preserves empty
positions — the token count is the comma count plus one, and `"a,,b"` gives
three tokens with the middle one empty — but `PXList.tokenize_line` instead
splits on commas and whitespace runs and discards every empty token. -/
theorem C6_tokenization :
    (∀ s : Str, (Py.splitOn ',' s).length = s.count ',' + 1)
    ∧ (∀ raw : Str, (PXListLite.partsOf raw).length = raw.count ',' + 1)
    ∧ (∀ raw : Str, (PXTotaList.partsOf raw).length = raw.count ',' + 1)
    ∧ PXListLite.partsOf ("a,,b".data) = [("a".data), [], ("b".data)]
    ∧ (∀ s : Str, [] ∉ PXList.tokenize_line s)
    ∧ PXList.tokenize_line ("a b".data) = [("a".data), ("b".data)] := by
  refine ⟨fun s => Py.length_splitOn ',' s, ?_, ?_, by decide, ?_, by decide⟩
  · intro raw
    rw [PXListLite.partsOf, List.length_map]
    exact Py.length_splitOn ',' raw
  · intro raw
    rw [PXTotaList.partsOf, List.length_map]
    exact Py.length_splitOn ',' raw
  · intro s hmem
    rw [PXList.tokenize_line] at hmem
    have := List.mem_filter.mp hmem
    simp at this

namespace PXListLite

open Py

theorem is_number_strip (tok : Str) : is_number (strip tok) = isdigit (strip tok) := by
  rw [is_number, clean_token, strip_idem]

theorem step_empty {st : LSt} {tok : Str} (h : (strip tok).isEmpty = true) :
    step st tok = st := by
  simp [step, clean_token, h]

theorem step_size {st : LSt} {tok : Str} (h1 : (strip tok).isEmpty = false)
    (h2 : is_size (upper (strip tok)) = true) :
    step st tok = { st with tams := st.tams ++ [upper (strip tok)] } := by
  simp [step, clean_token, h1, h2]

theorem step_num {st : LSt} {tok : Str} (h1 : (strip tok).isEmpty = false)
    (h2 : is_size (upper (strip tok)) = false)
    (h3 : isdigit (strip tok) = true) (h4 : st.number.isEmpty = true) :
    step st tok = { st with number := upper (strip tok) } := by
  have h3' : is_number (strip tok) = true := by rw [is_number_strip]; exact h3
  simp [step, clean_token, h1, h2, h3', h4]

theorem step_text {st : LSt} {tok : Str} (h1 : (strip tok).isEmpty = false)
    (h2 : is_size (upper (strip tok)) = false)
    (h34 : (isdigit (strip tok) && st.number.isEmpty) = false) :
    step st tok =
      if st.name.isEmpty then { st with name := upper (strip tok) }
      else { st with extras := st.extras ++ [upper (strip tok)] } := by
  have h34' : (is_number (strip tok) && st.number.isEmpty) = false := by
    rw [is_number_strip]
    exact h34
  simp [step, clean_token, h1, h2, h34']

/-- The number candidate contributed by one comma token: non-empty after
trimming, not a size, all digits. -/
def numCand (p : Str) : Option Str :=
  let t := strip p
  if !t.isEmpty && !(is_size (upper t)) && isdigit t then some (upper t) else none

theorem numCand_ne_nil {p v : Str} (h : numCand p = some v) : v ≠ [] := by
  rw [numCand] at h
  split at h
  case isTrue hc =>
    cases h
    simp only [Bool.and_eq_true, Bool.not_eq_true'] at hc
    intro hv
    have hsp : strip p = [] := by simpa [upper] using hv
    rw [hsp] at hc
    simp at hc
  case isFalse => cases h

theorem foldl_step_number :
    ∀ (parts : List Str) (st : LSt),
      (parts.foldl step st).number =
        if st.number.isEmpty then ((parts.filterMap numCand).headD st.number)
        else st.number := by
  intro parts
  induction parts with
  | nil =>
    intro st
    simp only [List.foldl_nil, List.filterMap_nil, List.headD_nil]
    split <;> rfl
  | cons tok parts ih =>
    intro st
    rw [List.foldl_cons, List.filterMap_cons]
    by_cases h1 : (strip tok).isEmpty = true
    · have hcand : numCand tok = none := by simp [numCand, h1]
      rw [step_empty h1, hcand, ih]
    · rw [Bool.not_eq_true] at h1
      by_cases h2 : is_size (upper (strip tok)) = true
      · have hcand : numCand tok = none := by simp [numCand, h2]
        rw [step_size h1 h2, hcand, ih]
      · rw [Bool.not_eq_true] at h2
        by_cases h3 : isdigit (strip tok) = true
        · have hcand : numCand tok = some (upper (strip tok)) := by
            simp [numCand, h1, h2, h3]
          by_cases h4 : st.number.isEmpty = true
          · rw [step_num h1 h2 h3 h4, hcand, ih]
            have hne : (upper (strip tok)).isEmpty = false := by
              rw [upper]
              cases hs : strip tok with
              | nil => rw [hs] at h1; simp at h1
              | cons a t => simp
            simp [h4, hne]
          · rw [Bool.not_eq_true] at h4
            have hnum : (step st tok).number = st.number := by
              rw [step_text h1 h2 (by simp [h3, h4])]
              split <;> rfl
            rw [ih, hnum, hcand]
            simp [h4]
        · rw [Bool.not_eq_true] at h3
          have hcand : numCand tok = none := by simp [numCand, h3]
          have hnum : (step st tok).number = st.number := by
            rw [step_text h1 h2 (by simp [h3])]
            split <;> rfl
          rw [ih, hnum, hcand]

/-- Appending one more number-shaped, non-size token to a line that already
has a number candidate makes the classification treat it exactly as free
text: it lands in the name slot (when empty) or the extras. -/
theorem foldl_step_text_extend {parts : List Str} {tok : Str}
    (h1 : (strip tok).isEmpty = false) (h2 : is_size (upper (strip tok)) = false)
    (h3 : isdigit (strip tok) = true)
    (hcand : (parts.filterMap numCand) ≠ []) :
    (parts ++ [tok]).foldl step ⟨[], [], [], []⟩ =
      (let st := parts.foldl step ⟨[], [], [], []⟩
       if st.name.isEmpty then { st with name := upper (strip tok) }
       else { st with extras := st.extras ++ [upper (strip tok)] }) := by
  have hnum : (parts.foldl step ⟨[], [], [], []⟩).number ≠ [] := by
    rw [foldl_step_number]
    simp only [List.isEmpty_nil, if_true]
    cases hc : parts.filterMap numCand with
    | nil => exact absurd hc hcand
    | cons v t =>
      simp only [List.headD_cons]
      obtain ⟨p, _, hpv⟩ := List.mem_filterMap.mp (hc ▸ List.mem_cons_self v t)
      exact numCand_ne_nil hpv
  have hemp : (parts.foldl step ⟨[], [], [], []⟩).number.isEmpty = false := by
    cases hn : (parts.foldl step ⟨[], [], [], []⟩).number with
    | nil => exact absurd hn hnum
    | cons a t => simp
  have hcond : (isdigit (strip tok) && (parts.foldl step ⟨[], [], [], []⟩).number.isEmpty) = false := by
    simp [hemp]
  rw [List.foldl_append, List.foldl_cons, List.foldl_nil, step_text h1 h2 hcond]

end PXListLite


namespace PXTotaList

open Py

theorem tota_is_number_strip (tok : Str) :
    is_number (strip tok) = (!(strip tok).isEmpty && hasDigit (strip tok)) := by
  rw [is_number, strip_idem]

theorem tota_loop_append :
    ∀ (l1 l2 : List Str) (st : TSt),
      loop st (l1 ++ l2) =
        match loop st l1 with
        | .error e => .error e
        | .ok st1 => loop st1 l2 := by
  intro l1
  induction l1 with
  | nil => intro l2 st; rfl
  | cons tok rest ih =>
    intro l2 st
    rw [List.cons_append, loop, loop]
    by_cases hf : is_forbidden tok = true
    · simp [hf]
    · rw [Bool.not_eq_true] at hf
      simp only [hf, Bool.false_eq_true, if_false]
      cases hs : stepTok st tok with
      | error e => rfl
      | ok st1 => exact ih l2 st1

theorem tota_stepTok_empty {st : TSt} {tok : Str} (h : (strip tok).isEmpty = true) :
    stepTok st tok = .ok st := by
  simp [stepTok, h]

theorem tota_stepTok_size {st : TSt} {tok : Str} (h1 : (strip tok).isEmpty = false)
    (h2 : is_size_token (upper (strip tok)) = true) :
    stepTok st tok =
      (normalize_size_token (upper (strip tok))).map
        fun n => { st with tams := st.tams ++ [n] } := by
  simp [stepTok, h1, h2]

theorem tota_stepTok_num {st : TSt} {tok : Str} (h1 : (strip tok).isEmpty = false)
    (h2 : is_size_token (upper (strip tok)) = false)
    (h3 : hasDigit (strip tok) = true) (h4 : st.number.isEmpty = true) :
    stepTok st tok = .ok { st with number := upper (strip tok) } := by
  have h3' : is_number (strip tok) = true := by
    rw [tota_is_number_strip, h1, h3]
    rfl
  simp [stepTok, h1, h2, h3', h4]

theorem tota_stepTok_text (st : TSt) {tok : Str} (h1 : (strip tok).isEmpty = false)
    (h2 : is_size_token (upper (strip tok)) = false)
    (h34 : (hasDigit (strip tok) && st.number.isEmpty) = false) :
    stepTok st tok =
      .ok (if st.name.isEmpty then { st with name := upper (strip tok) }
           else { st with extras := st.extras ++ [upper (strip tok)] }) := by
  have h34' : (is_number (strip tok) && st.number.isEmpty) = false := by
    rw [tota_is_number_strip, h1]
    simpa using h34
  simp only [stepTok, strip_idem, h1, h2, h34', Bool.false_eq_true, if_false]
  split <;> rfl

/-- The number candidate contributed by one comma token of PXTotaList:
non-empty after trimming, not a size token, containing a digit. -/
def numCand (p : Str) : Option Str :=
  let t := strip p
  if !t.isEmpty && !(is_size_token (upper t)) && hasDigit t then some (upper t) else none

theorem tota_numCand_ne_nil {p v : Str} (h : numCand p = some v) : v ≠ [] := by
  rw [numCand] at h
  split at h
  case isTrue hc =>
    cases h
    simp only [Bool.and_eq_true, Bool.not_eq_true'] at hc
    intro hv
    have hsp : strip p = [] := by simpa [upper] using hv
    rw [hsp] at hc
    simp at hc
  case isFalse => cases h

theorem tota_loop_number :
    ∀ (parts : List Str) (st st' : TSt), loop st parts = .ok st' →
      st'.number =
        if st.number.isEmpty then ((parts.filterMap numCand).headD st.number)
        else st.number := by
  intro parts
  induction parts with
  | nil =>
    intro st st' h
    cases h
    simp only [List.filterMap_nil, List.headD_nil]
    split <;> rfl
  | cons tok parts ih =>
    intro st st' h
    rw [loop] at h
    by_cases hf : is_forbidden tok = true
    · rw [if_pos hf] at h; cases h
    · rw [Bool.not_eq_true] at hf
      rw [if_neg (by simp [hf])] at h
      rw [List.filterMap_cons]
      by_cases h1 : (strip tok).isEmpty = true
      · have hcand : numCand tok = none := by simp [numCand, h1]
        simp only [tota_stepTok_empty h1] at h
        rw [hcand]
        exact ih st st' h
      · rw [Bool.not_eq_true] at h1
        by_cases h2 : is_size_token (upper (strip tok)) = true
        · have hcand : numCand tok = none := by simp [numCand, h2]
          simp only [tota_stepTok_size h1 h2] at h
          rw [hcand]
          cases hn : normalize_size_token (upper (strip tok)) with
          | error e => rw [hn] at h; cases h
          | ok n =>
            simp only [hn, Except.map] at h
            simpa using ih _ st' h
        · rw [Bool.not_eq_true] at h2
          by_cases h3 : hasDigit (strip tok) = true
          · have hcand : numCand tok = some (upper (strip tok)) := by
              simp [numCand, h1, h2, h3]
            by_cases h4 : st.number.isEmpty = true
            · simp only [tota_stepTok_num h1 h2 h3 h4] at h
              rw [hcand]
              have hne : (upper (strip tok)).isEmpty = false := by
                rw [upper]
                cases hs : strip tok with
                | nil => rw [hs] at h1; simp at h1
                | cons a t => simp
              have hres := ih _ st' h
              simp only [hres]
              simp [hne, h4]
            · rw [Bool.not_eq_true] at h4
              simp only [tota_stepTok_text st h1 h2 (by simp [h3, h4])] at h
              rw [hcand]
              have hres := ih _ st' h
              rw [hres]
              split <;> simp [h4]
          · rw [Bool.not_eq_true] at h3
            have hcand : numCand tok = none := by simp [numCand, h3]
            simp only [tota_stepTok_text st h1 h2 (by simp [h3])] at h
            rw [hcand]
            have hres := ih _ st' h
            rw [hres]
            split <;> simp

theorem loop_tams_unchanged :
    ∀ (parts : List Str) (st st' : TSt), loop st parts = .ok st' →
      (∀ p ∈ parts, is_size_token (upper (strip p)) = false) →
      st'.tams = st.tams := by
  intro parts
  induction parts with
  | nil => intro st st' h _; cases h; rfl
  | cons tok parts ih =>
    intro st st' h hall
    rw [loop] at h
    by_cases hf : is_forbidden tok = true
    · rw [if_pos hf] at h; cases h
    · rw [Bool.not_eq_true] at hf
      rw [if_neg (by simp [hf])] at h
      have h2 := hall tok (List.mem_cons_self tok parts)
      by_cases h1 : (strip tok).isEmpty = true
      · simp only [tota_stepTok_empty h1] at h
        exact ih st st' h (fun p hp => hall p (List.mem_cons_of_mem tok hp))
      · rw [Bool.not_eq_true] at h1
        by_cases h3 : hasDigit (strip tok) = true
        · by_cases h4 : st.number.isEmpty = true
          · simp only [tota_stepTok_num h1 h2 h3 h4] at h
            have hres := ih _ st' h (fun p hp => hall p (List.mem_cons_of_mem tok hp))
            simpa using hres
          · rw [Bool.not_eq_true] at h4
            simp only [tota_stepTok_text st h1 h2 (by simp [h3, h4])] at h
            have := ih _ st' h (fun p hp => hall p (List.mem_cons_of_mem tok hp))
            rw [this]
            split <;> rfl
        · rw [Bool.not_eq_true] at h3
          simp only [tota_stepTok_text st h1 h2 (by simp [h3])] at h
          have := ih _ st' h (fun p hp => hall p (List.mem_cons_of_mem tok hp))
          rw [this]
          split <;> rfl

end PXTotaList

namespace PXListPlus

open Py

theorem plus_loop_append :
    ∀ (l1 l2 : List Str) (lineNo : Nat) (st : PSt),
      loop lineNo st (l1 ++ l2) =
        match loop lineNo st l1 with
        | .error e => .error e
        | .ok st1 => loop lineNo st1 l2 := by
  intro l1
  induction l1 with
  | nil => intro l2 lineNo st; rfl
  | cons tok rest ih =>
    intro l2 lineNo st
    rw [List.cons_append, loop, loop]
    cases hs : stepTok lineNo st tok with
    | error e => rfl
    | ok st1 => exact ih l2 lineNo st1

theorem plus_stepTok_empty {lineNo : Nat} {st : PSt} {tok : Str}
    (h : (strip tok).isEmpty = true) : stepTok lineNo st tok = .ok st := by
  simp [stepTok, clean_token, h]

theorem plus_stepTok_size {lineNo : Nat} {st : PSt} {tok : Str}
    (h1 : (strip tok).isEmpty = false)
    (h2 : is_size_token (upper (strip tok)) = true) :
    stepTok lineNo st tok =
      (normalize_size_token (upper (strip tok)) lineNo).map
        fun n => { st with sizes := st.sizes ++ [n] } := by
  simp [stepTok, clean_token, h1, h2]

theorem plus_stepTok_num {lineNo : Nat} {st : PSt} {tok : Str}
    (h1 : (strip tok).isEmpty = false)
    (h2 : is_size_token (upper (strip tok)) = false)
    (h3 : hasDigit (strip tok) = true) (h4 : st.number.isEmpty = true) :
    stepTok lineNo st tok = .ok { st with number := normalize_spaces (strip tok) } := by
  simp [stepTok, clean_token, h1, h2, h3, h4]

theorem plus_stepTok_text {lineNo : Nat} (st : PSt) {tok : Str}
    (h1 : (strip tok).isEmpty = false)
    (h2 : is_size_token (upper (strip tok)) = false)
    (h34 : (st.number.isEmpty && hasDigit (strip tok)) = false) :
    stepTok lineNo st tok =
      .ok (if st.name.isEmpty then { st with name := normalize_name (strip tok) }
           else { st with extras := st.extras ++ [upper (normalize_spaces (strip tok))] }) := by
  simp only [stepTok, clean_token, h1, h2, h34, Bool.false_eq_true, if_false]
  split <;> rfl

theorem normalize_spaces_cons_ne_nil {a : Char} {t : Str} (ha : isWS a = false) :
    (normalize_spaces (a :: t)).isEmpty = false := by
  rw [normalize_spaces, splitOnPred, if_neg (by simp [ha])]
  cases hsp : splitOnPred isWS t with
  | nil => exact absurd hsp (splitOnPred_ne_nil isWS t)
  | cons b u =>
    simp only [List.filter_cons]
    have hkeep : (decide ¬(a :: b) = []) = true := by simp
    simp only [hkeep, if_true]
    cases hfil : List.filter (fun x => decide ¬x = []) u with
    | nil => simp [joinSep]
    | cons c v => simp [joinSep]

/-- The number candidate contributed by one comma token of PXListPlus: the
token kept as it came, whitespace-collapsed, NOT uppercased. -/
def numCand (p : Str) : Option Str :=
  let t := strip p
  if !t.isEmpty && !(is_size_token (upper t)) && hasDigit t
  then some (normalize_spaces t) else none

theorem plus_loop_number :
    ∀ (parts : List Str) (lineNo : Nat) (st st' : PSt),
      loop lineNo st parts = .ok st' →
      st'.number =
        if st.number.isEmpty then ((parts.filterMap numCand).headD st.number)
        else st.number := by
  intro parts
  induction parts with
  | nil =>
    intro lineNo st st' h
    cases h
    simp only [List.filterMap_nil, List.headD_nil]
    split <;> rfl
  | cons tok parts ih =>
    intro lineNo st st' h
    rw [loop] at h
    rw [List.filterMap_cons]
    by_cases h1 : (strip tok).isEmpty = true
    · have hcand : numCand tok = none := by simp [numCand, h1]
      simp only [plus_stepTok_empty h1] at h
      rw [hcand]
      exact ih lineNo st st' h
    · rw [Bool.not_eq_true] at h1
      by_cases h2 : is_size_token (upper (strip tok)) = true
      · have hcand : numCand tok = none := by simp [numCand, h2]
        simp only [plus_stepTok_size h1 h2] at h
        rw [hcand]
        cases hn : normalize_size_token (upper (strip tok)) lineNo with
        | error e => rw [hn] at h; cases h
        | ok n =>
          simp only [hn, Except.map] at h
          simpa using ih lineNo _ st' h
      · rw [Bool.not_eq_true] at h2
        by_cases h3 : hasDigit (strip tok) = true
        · have hcand : numCand tok = some (normalize_spaces (strip tok)) := by
            simp [numCand, h1, h2, h3]
          by_cases h4 : st.number.isEmpty = true
          · simp only [plus_stepTok_num h1 h2 h3 h4] at h
            rw [hcand]
            have hne : (normalize_spaces (strip tok)).isEmpty = false := by
              have hfix : strip (strip tok) = strip tok := strip_idem tok
              cases hs : strip tok with
              | nil => rw [hs] at h1; simp at h1
              | cons a t =>
                have hfix2 : strip (a :: t) = a :: t := by rw [← hs]; exact hfix
                exact normalize_spaces_cons_ne_nil (strip_head_false hfix2)
            have hres := ih lineNo _ st' h
            simp only [hres]
            simp [hne, h4]
          · rw [Bool.not_eq_true] at h4
            simp only [plus_stepTok_text st h1 h2 (by simp [h3, h4])] at h
            rw [hcand]
            have hres := ih lineNo _ st' h
            rw [hres]
            split <;> simp [h4]
        · rw [Bool.not_eq_true] at h3
          have hcand : numCand tok = none := by simp [numCand, h3]
          simp only [plus_stepTok_text st h1 h2 (by simp [h3])] at h
          rw [hcand]
          have hres := ih lineNo _ st' h
          rw [hres]
          split <;> simp

end PXListPlus
namespace PXSortLite

open Py

theorem findFirstSize_some :
    ∀ {parts : List Str} {s : Str} {rem : List Str},
      findFirstSize parts = some (s, rem) →
      s ∈ VALID_SIZES ∧ ∃ p ∈ parts, upper p = s := by
  intro parts
  induction parts with
  | nil => intro s rem h; cases h
  | cons p rest ih =>
    intro s rem h
    rw [findFirstSize] at h
    split at h
    · rename_i hmem
      cases h
      exact ⟨hmem, p, List.mem_cons_self p rest, rfl⟩
    · cases hf : findFirstSize rest with
      | none => rw [hf] at h; cases h
      | some q =>
        obtain ⟨qs, qr⟩ := q
        rw [hf] at h
        cases h
        obtain ⟨h1, x, hx, hxs⟩ := ih hf
        exact ⟨h1, x, List.mem_cons_of_mem p hx, hxs⟩

theorem findFirstSize_none {parts : List Str}
    (h : ∀ p ∈ parts, upper p ∉ VALID_SIZES) : findFirstSize parts = none := by
  induction parts with
  | nil => rfl
  | cons p rest ih =>
    rw [findFirstSize]
    rw [if_neg (h p (List.mem_cons_self p rest))]
    rw [ih (fun x hx => h x (List.mem_cons_of_mem p hx))]
    rfl

theorem splitLastDigit_none_iff :
    ∀ {l : List Str}, splitLastDigit l = none ↔ l.filter isdigit = [] := by
  intro l
  induction l with
  | nil => simp [splitLastDigit]
  | cons tok rest ih =>
    rw [splitLastDigit, List.filter_cons]
    cases hr : splitLastDigit rest with
    | some q =>
      have hne : rest.filter isdigit ≠ [] := by
        intro hnil
        rw [ih.mpr hnil] at hr
        cases hr
      simp only [hr]
      constructor
      · intro hx; simp at hx
      · intro hx
        exfalso
        split at hx
        · cases hx
        · exact hne hx
    | none =>
      have hfil : rest.filter isdigit = [] := ih.mp hr
      by_cases hd : isdigit tok = true
      · simp [hd, hfil]
      · rw [Bool.not_eq_true] at hd
        simp [hd, hfil]

theorem splitLastDigit_some_fst :
    ∀ {l : List Str} {n : Str} {ns : List Str},
      splitLastDigit l = some (n, ns) → (l.filter isdigit).getLast? = some n := by
  intro l
  induction l with
  | nil => intro n ns h; cases h
  | cons tok rest ih =>
    intro n ns h
    rw [splitLastDigit] at h
    cases hr : splitLastDigit rest with
    | some q =>
      obtain ⟨qn, qns⟩ := q
      rw [hr] at h
      cases h
      have hlast := ih (by rw [hr])
      rw [List.filter_cons]
      have hne : rest.filter isdigit ≠ [] := by
        intro hnil
        rw [splitLastDigit_none_iff.mpr hnil] at hr
        cases hr
      split
      · rw [List.getLast?_cons]
        cases hfe : rest.filter isdigit with
        | nil => exact absurd hfe hne
        | cons a t =>
          rw [hfe] at hlast
          simp [hlast]
      · exact hlast
    | none =>
      rw [hr] at h
      have hfil : rest.filter isdigit = [] := splitLastDigit_none_iff.mp hr
      by_cases hd : isdigit tok = true
      · rw [if_pos hd] at h
        cases h
        rw [List.filter_cons, if_pos hd, hfil]
        rfl
      · rw [Bool.not_eq_true] at hd
        rw [hd] at h
        cases h

theorem pxsort_parse_shape {l : Str} {s : Str} {it : Item}
    (h : parse_line l = some (s, it)) :
    ∃ rem, findFirstSize (partsOf (strip l)) = some (s, rem) ∧
      it.number = normalize ((rem.filter isdigit).getLastD []) ∧
      s ∈ VALID_SIZES ∧ (∃ p ∈ partsOf (strip l), upper p = s) := by
  rw [parse_line] at h
  split at h
  · cases h
  · dsimp only at h
    split at h
    · cases h
    · cases hf : findFirstSize (partsOf (strip l)) with
      | none => rw [hf] at h; simp at h
      | some q =>
        obtain ⟨qs, qr⟩ := q
        rw [hf] at h
        dsimp only at h
        split at h
        · cases h
        · cases hsd : splitLastDigit qr with
          | some p =>
            obtain ⟨pn, pns⟩ := p
            rw [hsd] at h
            dsimp only at h
            split at h
            · cases h
            · cases h
              refine ⟨qr, rfl, ?_, (findFirstSize_some hf).1, (findFirstSize_some hf).2⟩
              have hlast := splitLastDigit_some_fst (l := qr) (by rw [hsd])
              rw [List.getLastD_eq_getLast?, hlast]
              rfl
          | none =>
            rw [hsd] at h
            dsimp only at h
            split at h
            · cases h
            · cases h
              refine ⟨qr, rfl, ?_, (findFirstSize_some hf).1, (findFirstSize_some hf).2⟩
              rw [splitLastDigit_none_iff.mp hsd]
              rfl

theorem pxsort_no_size_none {l : Str}
    (h : ∀ p ∈ partsOf (strip l), upper p ∉ VALID_SIZES) : parse_line l = none := by
  rw [parse_line]
  split
  · rfl
  · dsimp only
    split
    · rfl
    · rw [findFirstSize_none h]

end PXSortLite

namespace PXListLite

open Py

theorem parse_line_number {l : Str} {r : ParsedRow}
    (h : parse_line l = .ok (some r)) :
    r.number = ((partsOf (strip l)).filterMap numCand).headD [] := by
  rw [parse_line] at h
  split at h
  · cases h
  · dsimp only at h
    split at h
    · cases h
    · split at h
      · cases h
      · cases h
        have := foldl_step_number (partsOf (strip l)) ⟨[], [], [], []⟩
        simpa using this

end PXListLite

namespace PXTotaList

open Py

theorem tota_parse_line_number {l : Str} {r : ParsedRow}
    (h : parse_line l = .ok (some r)) :
    r.number = ((partsOf (strip l)).filterMap numCand).headD [] := by
  rw [parse_line] at h
  split at h
  · cases h
  · cases hl : loop ⟨[], [], [], []⟩ (partsOf (strip l)) with
    | error e => rw [hl] at h; cases h
    | ok st =>
      rw [hl] at h
      dsimp only at h
      split at h
      · cases h
      · split at h
        · cases h
        · cases h
          simpa using tota_loop_number (partsOf (strip l)) ⟨[], [], [], []⟩ st hl

/-- Appending one more number-shaped, non-size, quote-free token to a line
that already has a number candidate: the classification treats it as text. -/
theorem tota_loop_text_extend {parts : List Str} {tok : Str}
    (hf : is_forbidden tok = false)
    (h1 : (strip tok).isEmpty = false) (h2 : is_size_token (upper (strip tok)) = false)
    (h3 : hasDigit (strip tok) = true)
    (hcand : (parts.filterMap numCand) ≠ []) :
    loop ⟨[], [], [], []⟩ (parts ++ [tok]) =
      (loop ⟨[], [], [], []⟩ parts).map fun st =>
        if st.name.isEmpty then { st with name := upper (strip tok) }
        else { st with extras := st.extras ++ [upper (strip tok)] } := by
  rw [tota_loop_append]
  cases hl : loop ⟨[], [], [], []⟩ parts with
  | error e => rfl
  | ok st =>
    have hnum : st.number ≠ [] := by
      have := tota_loop_number parts ⟨[], [], [], []⟩ st hl
      simp only [List.isEmpty_nil, if_true] at this
      rw [this]
      cases hc : parts.filterMap numCand with
      | nil => exact absurd hc hcand
      | cons v t =>
        simp only [List.headD_cons]
        obtain ⟨p, _, hpv⟩ := List.mem_filterMap.mp (hc ▸ List.mem_cons_self v t)
        exact tota_numCand_ne_nil hpv
    have hemp : st.number.isEmpty = false := by
      cases hn : st.number with
      | nil => exact absurd hn hnum
      | cons a t => simp
    simp only [loop, hf, Bool.false_eq_true, if_false,
      tota_stepTok_text st h1 h2 (by simp [h3, hemp])]
    rfl

end PXTotaList

namespace PXListPlus

open Py

theorem parse_line_dynamic_number {l : Str} {lineNo : Nat} {r : PRec}
    (h : parse_line_dynamic l lineNo = .ok r) :
    r.number =
      ((partsOf ((strip l).filter (· ≠ '﻿'))).filterMap numCand).headD [] := by
  rw [parse_line_dynamic] at h
  split at h
  · cases h
  · dsimp only at h
    cases hq : (partsOf ((strip l).filter (· ≠ '﻿'))).find? hasQuote with
    | some t => rw [hq] at h; cases h
    | none =>
      rw [hq] at h
      dsimp only at h
      cases hl : loop lineNo ⟨[], [], [], []⟩ (partsOf ((strip l).filter (· ≠ '﻿'))) with
      | error e => rw [hl] at h; cases h
      | ok st =>
        rw [hl] at h
        dsimp only at h
        cases h
        simpa using plus_loop_number _ lineNo ⟨[], [], [], []⟩ st hl

theorem plus_numCand_ne_nil {p v : Str} (h : numCand p = some v) : v ≠ [] := by
  rw [numCand] at h
  split at h
  case isTrue hc =>
    cases h
    simp only [Bool.and_eq_true, Bool.not_eq_true'] at hc
    intro hv
    have hfix : strip (strip p) = strip p := strip_idem p
    cases hs : strip p with
    | nil => rw [hs] at hc; simp at hc
    | cons a t =>
      have hfix2 : strip (a :: t) = a :: t := by rw [← hs]; exact hfix
      have hres := normalize_spaces_cons_ne_nil (t := t) (strip_head_false hfix2)
      rw [hs] at hv
      rw [hv] at hres
      simp at hres
  case isFalse => cases h

/-- Appending one more number-shaped, non-size, quote-free token to a line
that already has a number candidate: the classification treats it as text. -/
theorem plus_loop_text_extend {parts : List Str} {tok : Str} {lineNo : Nat}
    (h1 : (strip tok).isEmpty = false) (h2 : is_size_token (upper (strip tok)) = false)
    (h3 : hasDigit (strip tok) = true)
    (hcand : (parts.filterMap numCand) ≠ []) :
    loop lineNo ⟨[], [], [], []⟩ (parts ++ [tok]) =
      (loop lineNo ⟨[], [], [], []⟩ parts).map fun st =>
        if st.name.isEmpty then { st with name := normalize_name (strip tok) }
        else { st with extras := st.extras ++ [upper (normalize_spaces (strip tok))] } := by
  rw [plus_loop_append]
  cases hl : loop lineNo ⟨[], [], [], []⟩ parts with
  | error e => rfl
  | ok st =>
    have hnum : st.number ≠ [] := by
      have := plus_loop_number parts lineNo ⟨[], [], [], []⟩ st hl
      simp only [List.isEmpty_nil, if_true] at this
      rw [this]
      cases hc : parts.filterMap numCand with
      | nil => exact absurd hc hcand
      | cons v t =>
        simp only [List.headD_cons]
        obtain ⟨p, _, hpv⟩ := List.mem_filterMap.mp (hc ▸ List.mem_cons_self v t)
        exact plus_numCand_ne_nil hpv
    have hemp : st.number.isEmpty = false := by
      cases hn : st.number with
      | nil => exact absurd hn hnum
      | cons a t => simp
    simp only [loop, plus_stepTok_text st h1 h2 (by simp [h3, hemp])]
    rfl

end PXListPlus

namespace PXTotaList

open Py

theorem tota_numCand_val {p v : Str} (h : numCand p = some v) : v = upper (strip p) := by
  rw [numCand] at h
  split at h
  · cases h; rfl
  · cases h

end PXTotaList

namespace PXListPlus

open Py

theorem plus_numCand_val {p v : Str} (h : numCand p = some v) :
    v = normalize_spaces (strip p) := by
  rw [numCand] at h
  split at h
  · cases h; rfl
  · cases h

end PXListPlus

/-- C4: counterexample — in `PXSortLite.parse_line` the LAST all-digit token
is bound to the number field, not the first: on `"A,1,2,M"` the number
becomes `"2"` while the earlier number-shaped token `"1"` is absorbed into
the name (`"A 1"`), contradicting the claim's first-token rule for this
parser. -/
theorem C4_first_number_counterexample :
    PXSortLite.parse_line ("A,1,2,M".data) =
      some (("M".data), ⟨("A 1".data), ("2".data)⟩) := by
  decide

/-- C4 (amended): in PXListLite, PXTotaList and PXListPlus free-order parsing,
only the FIRST number-classified token (non-empty, not a size, number-shaped
for the variant) is bound to the record's number — the bound number is the
head of the candidate list — and appending a further number-shaped token to a
line that already has a candidate makes the classifier treat it exactly as
free text (name slot or extras). In `PXSortLite.parse_line`, however, the
LAST all-digit token of the remaining tokens is bound to the number. -/
theorem C4_first_number :
    (∀ (l : Str) (r : PXListLite.ParsedRow), PXListLite.parse_line l = .ok (some r) →
      r.number = ((PXListLite.partsOf (Py.strip l)).filterMap PXListLite.numCand).headD [])
    ∧ (∀ (l : Str) (r : PXTotaList.ParsedRow), PXTotaList.parse_line l = .ok (some r) →
      r.number = ((PXTotaList.partsOf (Py.strip l)).filterMap PXTotaList.numCand).headD [])
    ∧ (∀ (l : Str) (lineNo : Nat) (r : PXListPlus.PRec),
        PXListPlus.parse_line_dynamic l lineNo = .ok r →
        r.number =
          ((PXListPlus.partsOf ((Py.strip l).filter (· ≠ '﻿'))).filterMap
            PXListPlus.numCand).headD [])
    ∧ (∀ (parts : List Str) (tok : Str),
        (Py.strip tok).isEmpty = false → PXListLite.is_size (Py.upper (Py.strip tok)) = false →
        Py.isdigit (Py.strip tok) = true → (parts.filterMap PXListLite.numCand) ≠ [] →
        (parts ++ [tok]).foldl PXListLite.step ⟨[], [], [], []⟩ =
          (let st := parts.foldl PXListLite.step ⟨[], [], [], []⟩
           if st.name.isEmpty then { st with name := Py.upper (Py.strip tok) }
           else { st with extras := st.extras ++ [Py.upper (Py.strip tok)] }))
    ∧ (∀ (parts : List Str) (tok : Str),
        PXTotaList.is_forbidden tok = false → (Py.strip tok).isEmpty = false →
        PXTotaList.is_size_token (Py.upper (Py.strip tok)) = false →
        Py.hasDigit (Py.strip tok) = true → (parts.filterMap PXTotaList.numCand) ≠ [] →
        PXTotaList.loop ⟨[], [], [], []⟩ (parts ++ [tok]) =
          (PXTotaList.loop ⟨[], [], [], []⟩ parts).map fun st =>
            if st.name.isEmpty then { st with name := Py.upper (Py.strip tok) }
            else { st with extras := st.extras ++ [Py.upper (Py.strip tok)] })
    ∧ (∀ (parts : List Str) (tok : Str) (lineNo : Nat),
        (Py.strip tok).isEmpty = false →
        PXListPlus.is_size_token (Py.upper (Py.strip tok)) = false →
        Py.hasDigit (Py.strip tok) = true → (parts.filterMap PXListPlus.numCand) ≠ [] →
        PXListPlus.loop lineNo ⟨[], [], [], []⟩ (parts ++ [tok]) =
          (PXListPlus.loop lineNo ⟨[], [], [], []⟩ parts).map fun st =>
            if st.name.isEmpty then { st with name := PXListPlus.normalize_name (Py.strip tok) }
            else { st with extras := st.extras ++ [Py.upper (PXListPlus.normalize_spaces (Py.strip tok))] })
    ∧ (∀ (l : Str) (s : Str) (it : PXSortLite.Item), PXSortLite.parse_line l = some (s, it) →
        ∃ rem, PXSortLite.findFirstSize (PXSortLite.partsOf (Py.strip l)) = some (s, rem) ∧
          it.number = PXSortLite.normalize ((rem.filter Py.isdigit).getLastD [])) :=
  ⟨fun _ _ h => PXListLite.parse_line_number h,
   fun _ _ h => PXTotaList.tota_parse_line_number h,
   fun _ _ _ h => PXListPlus.parse_line_dynamic_number h,
   fun _ _ h1 h2 h3 h4 => PXListLite.foldl_step_text_extend h1 h2 h3 h4,
   fun _ _ hf h1 h2 h3 h4 => PXTotaList.tota_loop_text_extend hf h1 h2 h3 h4,
   fun _ _ _ h1 h2 h3 h4 => PXListPlus.plus_loop_text_extend h1 h2 h3 h4,
   fun _ _ _ h => by
     obtain ⟨rem, h1, h2, _, _⟩ := PXSortLite.pxsort_parse_shape h
     exact ⟨rem, h1, h2⟩⟩

/-- Witness for C4: the first-number rule applied at the concrete line
`"JO,5,7,M"` — the bound number is `"5"`, the first candidate. -/
theorem C4_first_number_witness :
    (⟨("JO".data), ("5".data), [("M".data)], ("7".data), []⟩ :
      PXListLite.ParsedRow).number =
      ((PXListLite.partsOf (Py.strip ("JO,5,7,M".data))).filterMap
        PXListLite.numCand).headD [] :=
  C4_first_number.1 ("JO,5,7,M".data) _ (by decide)

/-- C5: counterexample — `PXList.normalize_number` does not preserve the
bound number token verbatim: it keeps only digits and zero-pads to width two,
so the token `"5"` becomes `"05"` end-to-end through `parse_line_smart`. -/
theorem C5_number_counterexample :
    PXList.parse_line_smart ("Ana, 5, M".data) =
      .ok (("ANA".data), ("05".data), 1, ("M".data))
    ∧ ("05".data) ≠ ("5".data) := by
  constructor <;> decide

/-- C5 (amended): PXTotaList binds the number token verbatim up to trimming
and upper-casing; `PXList.normalize_number` instead keeps only the digits and
left-pads with zeros to at least two characters; PXListPlus keeps the token
as entered with whitespace collapsed and does NOT uppercase it (`"7x1"`
stays lowercase). -/
theorem C5_number_preservation :
    (∀ (l : Str) (r : PXTotaList.ParsedRow), PXTotaList.parse_line l = .ok (some r) →
      r.number = [] ∨ ∃ p ∈ PXTotaList.partsOf (Py.strip l),
        r.number = Py.upper (Py.strip p))
    ∧ (∀ s : Str, (PXList.normalize_number s).all Py.isDigitChar = true
        ∧ (PXList.normalize_number s ≠ [] → 2 ≤ (PXList.normalize_number s).length)
        ∧ ∃ k, PXList.normalize_number s = List.replicate k '0' ++ s.filter Py.isDigitChar)
    ∧ (∀ (l : Str) (lineNo : Nat) (r : PXListPlus.PRec),
        PXListPlus.parse_line_dynamic l lineNo = .ok r →
        r.number = [] ∨ ∃ p ∈ PXListPlus.partsOf ((Py.strip l).filter (· ≠ '﻿')),
          r.number = PXListPlus.normalize_spaces (Py.strip p))
    ∧ PXListPlus.parse_line_dynamic ("ana,7x1,M".data) 1 =
        .ok ⟨("ANA".data), ("7x1".data), [("1-M".data)], [], []⟩ := by
  refine ⟨?_, ?_, ?_, by decide⟩
  · intro l r h
    rw [PXTotaList.tota_parse_line_number h]
    cases hc : (PXTotaList.partsOf (Py.strip l)).filterMap PXTotaList.numCand with
    | nil => left; rfl
    | cons v t =>
      right
      obtain ⟨p, hp, hpv⟩ := List.mem_filterMap.mp (hc ▸ List.mem_cons_self v t)
      exact ⟨p, hp, by rw [List.headD_cons]; exact PXTotaList.tota_numCand_val hpv⟩
  · intro s
    rw [PXList.normalize_number]
    refine ⟨?_, ?_, ?_⟩
    · split
      · rfl
      · simp only [List.all_append, Bool.and_eq_true, List.all_eq_true]
        constructor
        · intro c hc
          rw [List.eq_of_mem_replicate hc]
          decide
        · intro c hc
          exact (List.mem_filter.mp hc).2
    · split
      · intro hx; exact absurd rfl hx
      · rename_i hne
        intro _
        rw [List.length_append, List.length_replicate]
        have h1 : (s.filter Py.isDigitChar).length ≠ 0 := by
          intro hz
          rw [List.length_eq_zero.mp hz] at hne
          simp at hne
        omega
    · split
      · rename_i he
        exact ⟨0, by rw [List.isEmpty_iff] at he; rw [he]; rfl⟩
      · exact ⟨2 - (s.filter Py.isDigitChar).length, rfl⟩
  · intro l lineNo r h
    rw [PXListPlus.parse_line_dynamic_number h]
    cases hc : (PXListPlus.partsOf ((Py.strip l).filter (· ≠ '﻿'))).filterMap
        PXListPlus.numCand with
    | nil => left; rfl
    | cons v t =>
      right
      obtain ⟨p, hp, hpv⟩ := List.mem_filterMap.mp (hc ▸ List.mem_cons_self v t)
      exact ⟨p, hp, by rw [List.headD_cons]; exact PXListPlus.plus_numCand_val hpv⟩

/-- Witness for C5: the zero-padding behaviour of `normalize_number` at the
concrete input `"7X1"` (digits kept, non-digits removed). -/
theorem C5_number_preservation_witness :
    (PXList.normalize_number ("7X1".data)).all Py.isDigitChar = true
    ∧ (PXList.normalize_number ("7X1".data) ≠ [] →
        2 ≤ (PXList.normalize_number ("7X1".data)).length)
    ∧ ∃ k, PXList.normalize_number ("7X1".data) =
        List.replicate k '0' ++ ("7X1".data).filter Py.isDigitChar :=
  C5_number_preservation.2.1 ("7X1".data)

namespace PXTotaList

open Py

theorem parse_line_tams_ne_nil {l : Str} {r : ParsedRow}
    (h : parse_line l = .ok (some r)) : r.tams ≠ [] := by
  rw [parse_line] at h
  split at h
  · cases h
  · cases hl : loop ⟨[], [], [], []⟩ (partsOf (strip l)) with
    | error e => rw [hl] at h; cases h
    | ok st =>
      rw [hl] at h
      dsimp only at h
      split at h
      · cases h
      · split at h
        · cases h
        · cases h
          rename_i hne _
          intro hx
          have hx2 : st.tams = [] := hx
          rw [hx2] at hne
          simp at hne

theorem parse_line_no_size_rejects {l : Str}
    (h : ∀ p ∈ partsOf (strip l), is_size_token (upper (strip p)) = false) :
    parse_line l = .ok none ∨ ∃ e, parse_line l = .error e := by
  rw [parse_line]
  split
  · exact Or.inl rfl
  · cases hl : loop ⟨[], [], [], []⟩ (partsOf (strip l)) with
    | error e => exact Or.inr ⟨e, rfl⟩
    | ok st =>
      have htams : st.tams = [] := loop_tams_unchanged (partsOf (strip l)) _ st hl h
      right
      exact ⟨_, by dsimp only; rw [if_pos (by rw [htams]; rfl)]⟩

end PXTotaList

namespace PXList

open Py

/-- Does a token classify as a size in PXList taxonomy, in any of the three
pass-1 forms (qty-dash, qty-glued, bare)? -/
def sizeLike (tok : Str) : Bool :=
  let t := upper (strip tok)
  (match qtyDashLetters t with
   | some p => is_size_token (upper p.2)
   | none => false)
  || (match qtyGluedLetters t with
      | some p => is_size_token (upper p.2)
      | none => false)
  || is_size_token t

theorem findSize1_size :
    ∀ {toks : List Str} {q : Nat} {sz : Str} {rest : List Str},
      findSize1 toks = some (q, sz, rest) → is_size_token sz = true := by
  intro toks
  induction toks with
  | nil => intro q sz rest h; cases h
  | cons tok rest' ih =>
    intro q sz rest h
    rw [findSize1] at h
    cases hdash : qtyDashLetters (upper (strip tok)) with
    | some p =>
      simp only [hdash] at h
      by_cases hsz : is_size_token (upper p.2) = true
      · simp only [hsz, if_true] at h
        cases h
        exact hsz
      · rw [Bool.not_eq_true] at hsz
        simp only [hsz, Bool.false_eq_true, if_false] at h
        cases hglue : qtyGluedLetters (upper (strip tok)) with
        | some p2 =>
          simp only [hglue] at h
          by_cases hsz2 : is_size_token (upper p2.2) = true
          · simp only [hsz2, if_true] at h
            cases h
            exact hsz2
          · rw [Bool.not_eq_true] at hsz2
            simp only [hsz2, Bool.false_eq_true, if_false] at h
            split at h
            · cases h
              assumption
            · obtain ⟨r', hr', hval⟩ := Option.map_eq_some'.mp h
              cases hval
              exact ih hr'
        | none =>
          simp only [hglue] at h
          split at h
          · cases h
            assumption
          · obtain ⟨r', hr', hval⟩ := Option.map_eq_some'.mp h
            cases hval
            exact ih hr'
    | none =>
      simp only [hdash] at h
      cases hglue : qtyGluedLetters (upper (strip tok)) with
      | some p2 =>
        simp only [hglue] at h
        by_cases hsz2 : is_size_token (upper p2.2) = true
        · simp only [hsz2, if_true] at h
          cases h
          exact hsz2
        · rw [Bool.not_eq_true] at hsz2
          simp only [hsz2, Bool.false_eq_true, if_false] at h
          split at h
          · cases h
            assumption
          · obtain ⟨r', hr', hval⟩ := Option.map_eq_some'.mp h
            cases hval
            exact ih hr'
      | none =>
        simp only [hglue] at h
        split at h
        · cases h
          assumption
        · obtain ⟨r', hr', hval⟩ := Option.map_eq_some'.mp h
          cases hval
          exact ih hr'

theorem findSize1_none {toks : List Str}
    (h : ∀ t ∈ toks, sizeLike t = false) : findSize1 toks = none := by
  induction toks with
  | nil => rfl
  | cons tok rest ih =>
    have htok := h tok (List.mem_cons_self tok rest)
    rw [sizeLike] at htok
    simp only [Bool.or_eq_false_iff] at htok
    obtain ⟨⟨hd, hg⟩, hb⟩ := htok
    rw [findSize1]
    have ihr := ih (fun t ht => h t (List.mem_cons_of_mem tok ht))
    cases hdash : qtyDashLetters (upper (strip tok)) with
    | some p =>
      rw [hdash] at hd
      simp only [hdash]
      simp only at hd
      cases hglue : qtyGluedLetters (upper (strip tok)) with
      | some p2 =>
        rw [hglue] at hg
        simp only at hg
        simp only [hglue, hd, hg, hb, Bool.false_eq_true, if_false, ihr]
        rfl
      | none =>
        simp only [hglue, hd, hb, Bool.false_eq_true, if_false, ihr]
        rfl
    | none =>
      cases hglue : qtyGluedLetters (upper (strip tok)) with
      | some p2 =>
        rw [hglue] at hg
        simp only at hg
        simp only [hdash, hglue, hg, hb, Bool.false_eq_true, if_false, ihr]
        rfl
      | none =>
        simp only [hdash, hglue, hb, Bool.false_eq_true, if_false, ihr]
        rfl

theorem findSize2_single (a : Str) : findSize2 [a] = none := rfl

theorem findSize2_cons_cons (a b : Str) (l : List Str) :
    findSize2 (a :: b :: l) =
      (if (isdigit (upper (strip a)) && is_size_token (upper (strip b))) = true then
        some (natOfDigits (upper (strip a)), upper (strip b), l)
      else (findSize2 (b :: l)).map fun p => (p.1, p.2.1, a :: p.2.2)) := rfl

theorem findSize2_size :
    ∀ {toks : List Str} {q : Nat} {sz : Str} {rest : List Str},
      findSize2 toks = some (q, sz, rest) → is_size_token sz = true := by
  intro toks
  induction toks with
  | nil => intro q sz rest h; cases h
  | cons tok rest' ih =>
    intro q sz rest h
    cases rest' with
    | nil => rw [findSize2_single] at h; cases h
    | cons nxt rest2 =>
      rw [findSize2_cons_cons] at h
      split at h
      · rename_i hcond
        cases h
        exact (Bool.and_eq_true _ _).mp hcond |>.2
      · obtain ⟨r', hr', hval⟩ := Option.map_eq_some'.mp h
        cases hval
        exact ih hr'

theorem findSize2_none {toks : List Str}
    (h : ∀ t ∈ toks, sizeLike t = false) : findSize2 toks = none := by
  induction toks with
  | nil => rfl
  | cons tok rest ih =>
    cases rest with
    | nil => rfl
    | cons nxt rest2 =>
      have hnxt := h nxt (List.mem_cons_of_mem tok (List.mem_cons_self nxt rest2))
      rw [sizeLike] at hnxt
      simp only [Bool.or_eq_false_iff] at hnxt
      rw [findSize2_cons_cons]
      rw [if_neg (by simp [hnxt.2])]
      rw [ih (fun t ht => h t (List.mem_cons_of_mem tok ht))]
      rfl

theorem extract_qty_and_size_valid {toks : List Str} {q : Nat} {sz : Str}
    {rest : List Str} (h : extract_qty_and_size toks = .ok (q, sz, rest)) :
    is_size_token sz = true := by
  rw [extract_qty_and_size] at h
  cases h1 : findSize1 toks with
  | some r =>
    rw [h1] at h
    cases h
    exact findSize1_size h1
  | none =>
    rw [h1] at h
    dsimp only at h
    cases h2 : findSize2 toks with
    | some r =>
      rw [h2] at h
      cases h
      exact findSize2_size h2
    | none => rw [h2] at h; cases h

theorem extract_qty_and_size_no_size {toks : List Str}
    (h : ∀ t ∈ toks, sizeLike t = false) :
    ∃ e, extract_qty_and_size toks = .error e :=
  ⟨_, by rw [extract_qty_and_size, findSize1_none h]; dsimp only; rw [findSize2_none h]⟩

end PXList

/-- C9: every record returned by a successful line parse carries at least one
size: PXTotaList rejects a parsed line with zero recognized size tokens (and
a returned row always has non-empty `tams`), PXSortLite only returns a record
when some token is a valid size (and returns `none` when no token is), and
PXList's `extract_qty_and_size` only succeeds with a taxonomy-valid size and
errors when no token is size-like — never a silent default. -/
theorem C9_nonempty_sizes :
    (∀ (l : Str) (r : PXTotaList.ParsedRow),
      PXTotaList.parse_line l = .ok (some r) → r.tams ≠ [])
    ∧ (∀ l : Str,
        (∀ p ∈ PXTotaList.partsOf (Py.strip l),
          PXTotaList.is_size_token (Py.upper (Py.strip p)) = false) →
        PXTotaList.parse_line l = .ok none ∨ ∃ e, PXTotaList.parse_line l = .error e)
    ∧ (∀ (l s : Str) (it : PXSortLite.Item), PXSortLite.parse_line l = some (s, it) →
        s ∈ PXSortLite.VALID_SIZES ∧
          ∃ p ∈ PXSortLite.partsOf (Py.strip l), Py.upper p = s)
    ∧ (∀ l : Str,
        (∀ p ∈ PXSortLite.partsOf (Py.strip l), Py.upper p ∉ PXSortLite.VALID_SIZES) →
        PXSortLite.parse_line l = none)
    ∧ (∀ (toks : List Str) (q : Nat) (sz : Str) (rest : List Str),
        PXList.extract_qty_and_size toks = .ok (q, sz, rest) →
        PXList.is_size_token sz = true)
    ∧ (∀ toks : List Str, (∀ t ∈ toks, PXList.sizeLike t = false) →
        ∃ e, PXList.extract_qty_and_size toks = .error e) :=
  ⟨fun _ _ h => PXTotaList.parse_line_tams_ne_nil h,
   fun _ h => PXTotaList.parse_line_no_size_rejects h,
   fun _ _ _ h => by
     obtain ⟨_, _, _, hmem, hex⟩ := PXSortLite.pxsort_parse_shape h
     exact ⟨hmem, hex⟩,
   fun _ h => PXSortLite.pxsort_no_size_none h,
   fun _ _ _ _ h => PXList.extract_qty_and_size_valid h,
   fun _ h => PXList.extract_qty_and_size_no_size h⟩

/-- Witness for C9: the non-empty-sizes invariant applied at the concrete
line `"ANA,M"`, whose parse yields `tams = ["1-M"]`. -/
theorem C9_nonempty_sizes_witness :
    (⟨("ANA".data), [], [("1-M".data)], [], []⟩ : PXTotaList.ParsedRow).tams ≠ [] :=
  C9_nonempty_sizes.1 ("ANA,M".data) _ (by decide)

/-- `exOk` is invariant under `Except.map`. -/
theorem exOk_map {ε α β : Type} (f : α → β) (e : Except ε α) :
    exOk (e.map f) = exOk e := by
  cases e <;> rfl

/-- C1: counterexample — a parse failure on line 1 of a two-line batch makes
`PXListLite.process_text` raise for the whole batch: the valid sibling line
`"ANA,M"` is never processed and no record list is returned. -/
theorem C1_abort_counterexample :
    PXListLite.process_text ("X\nANA,M".data) =
      .error ("Linha 1: Sem TAM1 reconhecido: X".data) := by
  decide

/-- C1 (amended): `PXList.convert_text_to_json` and the PXListPlus
verification loop really do accumulate — every line independently contributes
either a record or one error/skip entry, and a failing line never affects its
siblings — but `PXListLite.process_text` and `PXTotaList.process_text`
succeed exactly when EVERY non-blank line parses: one failing line aborts the
whole batch. -/
theorem C1_error_propagation :
    (∀ ls : List Str, PXList.convertLines ls =
      (ls.filterMap PXList.lineOrder, ls.countP PXList.lineSkips))
    ∧ (∀ (i : Nat) (ls : List Str), PXListPlus.verifyLines i ls =
        ((List.enumFrom i ls).filterMap PXListPlus.vOk,
         (List.enumFrom i ls).filterMap PXListPlus.vErr))
    ∧ (∀ (i : Nat) (ls : List Str), exOk (PXListLite.processLines i ls) =
        ls.all fun l => ((Py.strip l).isEmpty || exOk (PXListLite.parse_line l)))
    ∧ (∀ (i : Nat) (ls : List Str), exOk (PXTotaList.processLines i ls) =
        ls.all fun l => ((Py.strip l).isEmpty || exOk (PXTotaList.parse_line l))) := by
  refine ⟨?_, ?_, ?_, ?_⟩
  · intro ls
    induction ls with
    | nil => rfl
    | cons l ls ih =>
      rw [PXList.convertLines, List.filterMap_cons, List.countP_cons]
      rw [PXList.lineOrder, PXList.lineSkips]
      by_cases he : (Py.strip l).isEmpty = true
      · have he2 : (Py.strip l).isEmpty := he
        simp only [he, if_true, he2]
        rw [ih]
        simp [he]
      · rw [Bool.not_eq_true] at he
        simp only [he, Bool.false_eq_true, if_false]
        cases hp : PXList.parse_line_smart (Py.strip l) with
        | error e =>
          simp only [hp]
          rw [ih]
          simp [exOk, he]
        | ok v =>
          obtain ⟨n, num, q, sz⟩ := v
          simp only [hp]
          rw [ih]
          simp [exOk, he]
  · intro i ls
    induction ls generalizing i with
    | nil => rfl
    | cons l ls ih =>
      rw [PXListPlus.verifyLines, List.enumFrom, List.filterMap_cons, List.filterMap_cons]
      rw [ih (i + 1)]
      cases hv : PXListPlus.verifyLine i l with
      | ok r => simp [PXListPlus.vOk, PXListPlus.vErr, hv, Except.toOption, exErr]
      | error e => simp [PXListPlus.vOk, PXListPlus.vErr, hv, Except.toOption, exErr]
  · intro i ls
    induction ls generalizing i with
    | nil => rfl
    | cons l ls ih =>
      rw [PXListLite.processLines, List.all_cons]
      by_cases he : (Py.strip l).isEmpty = true
      · simp only [he, if_true, Bool.true_or]
        exact ih (i + 1)
      · rw [Bool.not_eq_true] at he
        simp only [he, Bool.false_eq_true, if_false, Bool.false_or]
        cases hp : PXListLite.parse_line l with
        | error e => simp [exOk]
        | ok v =>
          cases v with
          | none => simp only [exOk, Bool.true_and]; exact ih (i + 1)
          | some r =>
            rw [exOk_map]
            simp only [exOk, Bool.true_and]
            exact ih (i + 1)
  · intro i ls
    induction ls generalizing i with
    | nil => rfl
    | cons l ls ih =>
      rw [PXTotaList.processLines, List.all_cons]
      by_cases he : (Py.strip l).isEmpty = true
      · simp only [he, if_true, Bool.true_or]
        exact ih (i + 1)
      · rw [Bool.not_eq_true] at he
        simp only [he, Bool.false_eq_true, if_false, Bool.false_or]
        cases hp : PXTotaList.parse_line l with
        | error e => simp [exOk]
        | ok v =>
          cases v with
          | none => simp only [exOk, Bool.true_and]; exact ih (i + 1)
          | some r =>
            rw [exOk_map]
            simp only [exOk, Bool.true_and]
            exact ih (i + 1)

/-! ### C2: gender inference from normalized size tokens -/

namespace Py

theorem splitOnce_append {sep : Char} {pre rest : Str} (h : sep ∉ pre) :
    splitOnce sep (pre ++ sep :: rest) = some (pre, rest) := by
  induction pre with
  | nil => simp [splitOnce]
  | cons c cs ih =>
    have hc : ¬(c = sep) := fun he => h (he ▸ List.mem_cons_self c cs)
    have hcs : sep ∉ cs := fun hm => h (List.mem_cons_of_mem _ hm)
    simp [splitOnce, hc, ih hcs]

theorem startsWith_hasSub {pat s : Str} (h : startsWith pat s = true) :
    hasSub pat s = true := by
  cases s with
  | nil =>
    cases pat with
    | nil => rfl
    | cons p ps => simp [startsWith] at h
  | cons c cs => simp [hasSub, h]

end Py

namespace PXListPlus

open Py

/-- Shape of the successful results of `normalize_size_token`: a non-empty
digit prefix, a dash, then the size code. -/
def IsNormTok (s code : Str) : Prop :=
  ∃ pre, pre ≠ [] ∧ (∀ c ∈ pre, isDigitChar c = true) ∧ s = pre ++ '-' :: code

/-- A size code as stored by normalization: taxonomy-valid and uppercase. -/
def GoodTok (s code : Str) : Prop :=
  IsNormTok s code ∧ validCode code = true ∧ upper code = code

theorem child_shape {code : Str} (h : is_child_size code = true) :
    (∃ c a, code = [c, a] ∧ ('2' ≤ c && c ≤ '9') = true ∧ (a = 'A' ∨ a = 'a')) ∨
    (∃ c2 a, code = ['1', c2, a] ∧ ('0' ≤ c2 && c2 ≤ '2') = true ∧ (a = 'A' ∨ a = 'a')) := by
  cases code with
  | nil => simp [is_child_size, PXTotaList.is_child_size] at h
  | cons c t =>
    cases t with
    | nil => simp [is_child_size, PXTotaList.is_child_size] at h
    | cons c2 t2 =>
      cases t2 with
      | nil =>
        left
        simp only [is_child_size, PXTotaList.is_child_size, Bool.and_eq_true,
          Bool.or_eq_true, decide_eq_true_eq] at h
        exact ⟨c, c2, rfl, by simp [h.1], h.2⟩
      | cons c3 t3 =>
        cases t3 with
        | nil =>
          right
          simp only [is_child_size, PXTotaList.is_child_size, Bool.and_eq_true,
            Bool.or_eq_true, decide_eq_true_eq] at h
          obtain ⟨⟨h1, h2⟩, h3⟩ := h
          subst h1
          exact ⟨c2, c3, rfl, by simp [h2], h3⟩
        | cons _ _ => simp [is_child_size, PXTotaList.is_child_size] at h

theorem child_no_BL {code : Str} (h : is_child_size code = true) :
    hasSub ['B','L'] code = false := by
  have hB : ('B' : Char).toNat = 66 := rfl
  rcases child_shape h with ⟨c, a, hc, hr, ha⟩ | ⟨c2, a, hc, hr, ha⟩
  · have h2 : ('2' : Char).toNat ≤ c.toNat :=
      char_le_iff_toNat.mp (of_decide_eq_true ((Bool.and_eq_true _ _).mp hr).1)
    have h9 : c.toNat ≤ ('9' : Char).toNat :=
      char_le_iff_toNat.mp (of_decide_eq_true ((Bool.and_eq_true _ _).mp hr).2)
    have h2n : ('2' : Char).toNat = 50 := rfl
    have h9n : ('9' : Char).toNat = 57 := rfl
    have hbc : ¬('B' = c) := by
      intro he; rw [char_eq_iff_toNat] at he; omega
    have hba : ¬('B' = a) := by rcases ha with rfl | rfl <;> decide
    subst hc
    simp [hasSub, startsWith, hbc, hba]
  · have h0 : ('0' : Char).toNat ≤ c2.toNat :=
      char_le_iff_toNat.mp (of_decide_eq_true ((Bool.and_eq_true _ _).mp hr).1)
    have h2 : c2.toNat ≤ ('2' : Char).toNat :=
      char_le_iff_toNat.mp (of_decide_eq_true ((Bool.and_eq_true _ _).mp hr).2)
    have h0n : ('0' : Char).toNat = 48 := rfl
    have h2n : ('2' : Char).toNat = 50 := rfl
    have h1 : ¬('B' = '1') := by decide
    have hbc : ¬('B' = c2) := by
      intro he; rw [char_eq_iff_toNat] at he; omega
    have hba : ¬('B' = a) := by rcases ha with rfl | rfl <;> decide
    subst hc
    simp [hasSub, startsWith, h1, hbc, hba]

theorem allowed_no_BL {code : Str} (h : code ∈ PXList.ALLOWED_SIZES) :
    hasSub ['B','L'] code = false := by
  simp only [PXList.ALLOWED_SIZES, List.mem_cons, List.not_mem_nil, or_false] at h
  rcases h with rfl | rfl | rfl | rfl | rfl | rfl | rfl <;> decide

theorem adult_eq_allowed : PXTotaList.ADULT_SIZES = PXList.ALLOWED_SIZES := rfl

theorem adult_no_BL {code : Str} (h : is_adult_size code = true) :
    hasSub ['B','L'] code = false := by
  have hm : code ∈ PXList.ALLOWED_SIZES := by
    rw [← adult_eq_allowed]
    exact of_decide_eq_true h
  exact allowed_no_BL hm

theorem babylook_hasBL {code : Str} (h : is_babylook_size code = true)
    (hu : upper code = code) : hasSub ['B','L'] code = true := by
  simp only [is_babylook_size, Bool.and_eq_true] at h
  rw [hu] at h
  exact startsWith_hasSub h.1

theorem hasSub_BL_of_valid {code : Str} (hv : validCode code = true)
    (hu : upper code = code) :
    hasSub ['B','L'] code = is_babylook_size code := by
  cases hb : is_babylook_size code with
  | true => exact babylook_hasBL hb hu
  | false =>
    simp only [validCode, Bool.or_eq_true] at hv
    rcases hv with (had | hch) | hbb
    · exact adult_no_BL had
    · exact child_no_BL hch
    · rw [hbb] at hb; exact absurd hb (by simp)

theorem childFlag_of_upper_fixed {code : Str} (hu : upper code = code) :
    ((decide (code.getLast? = some 'A')) && is_child_size code) = is_child_size code := by
  cases hch : is_child_size code with
  | false => simp
  | true =>
    rcases child_shape hch with ⟨c, a, hc, _, ha⟩ | ⟨c2, a, hc, _, ha⟩
    · subst hc
      simp only [upper, List.map, List.cons.injEq] at hu
      rcases ha with rfl | rfl
      · simp [List.getLast?]
      · exact absurd hu.2.1 (by decide)
    · subst hc
      simp only [upper, List.map, List.cons.injEq] at hu
      rcases ha with rfl | rfl
      · simp [List.getLast?]
      · exact absurd hu.2.2.1 (by decide)

theorem sizePart_eq {s code : Str} (hn : IsNormTok s code) (hu : upper code = code) :
    sizePart s = code := by
  obtain ⟨pre, hne, hdig, rfl⟩ := hn
  have hnot : '-' ∉ pre := fun hm =>
    absurd (hdig _ hm) (by decide)
  rw [sizePart, splitOnce_append hnot]
  exact hu

theorem any_congr_forall2 {α β : Type} {R : α → β → Prop} {f : α → Bool} {g : β → Bool}
    {as : List α} {bs : List β} (h : List.Forall₂ R as bs)
    (hp : ∀ a b, R a b → f a = g b) : as.any f = bs.any g := by
  induction h with
  | nil => rfl
  | cons hab _ ih => simp only [List.any_cons, hp _ _ hab, ih]

theorem detect_gender_spec {sizes codes : List Str} (lineNo : Nat)
    (h : List.Forall₂ GoodTok sizes codes) :
    detect_gender_from_sizes sizes lineNo =
      (if codes.any is_child_size && codes.any is_babylook_size then
        .error (("Linha ".data) ++ natStr lineNo ++
          (": divergencia (infantil + babylook na mesma linha).".data))
      else if codes.any is_child_size then .ok (['C'])
      else if codes.any is_babylook_size then .ok (['F','E'])
      else .ok (['M','A'])) := by
  have hC : (sizes.any fun s =>
      ((sizePart s).getLast? = some 'A') && is_child_size (sizePart s))
      = codes.any is_child_size := by
    refine any_congr_forall2 h ?_
    rintro a b ⟨hn, _, hu⟩
    rw [sizePart_eq hn hu]
    exact childFlag_of_upper_fixed hu
  have hB : (sizes.any fun s => hasSub ['B','L'] (sizePart s))
      = codes.any is_babylook_size := by
    refine any_congr_forall2 h ?_
    rintro a b ⟨hn, hv, hu⟩
    rw [sizePart_eq hn hu]
    exact hasSub_BL_of_valid hv hu
  unfold detect_gender_from_sizes
  rw [hC, hB]

end PXListPlus

namespace PXList

open Py

theorem px_is_size_cases {size : Str} (h : is_size_token size = true) :
    ((upper (strip size)).all fun c => 'A' ≤ c && c ≤ 'Z') = true ∧
    (upper (strip size) ∈ ALLOWED_SIZES ∨
     (startsWith ['B','L'] (upper (strip size)) = true ∧
      (upper (strip size)).drop 2 ∈ ALLOWED_SIZES)) := by
  rw [is_size_token] at h
  split at h
  · exact absurd h (by simp)
  · split at h
    · exact absurd h (by simp)
    · rename_i hall
      rw [Bool.not_eq_true', Bool.not_eq_false] at hall
      refine ⟨hall, ?_⟩
      split at h
      · rename_i hmem
        exact Or.inl hmem
      · rw [Bool.and_eq_true, decide_eq_true_eq] at h
        exact Or.inr h

theorem hasSub_BL_of_px_size {size : Str} (hs : strip size = size)
    (h : is_size_token size = true) :
    hasSub ['B','L'] (upper size) = PXListPlus.is_babylook_size (upper size) := by
  obtain ⟨hall, hcases⟩ := px_is_size_cases h
  rw [hs] at hall hcases
  have huu : upper (upper size) = upper size := upper_upper size
  rcases hcases with hmem | ⟨hbl, hdrop⟩
  · rw [PXListPlus.allowed_no_BL hmem]
    cases hb : PXListPlus.is_babylook_size (upper size) with
    | false => rfl
    | true =>
      have := PXListPlus.babylook_hasBL hb huu
      rw [PXListPlus.allowed_no_BL hmem] at this
      exact absurd this (by simp)
  · rw [startsWith_hasSub hbl]
    have hvc : PXListPlus.is_babylook_size (upper size) = true := by
      simp only [PXListPlus.is_babylook_size, huu, Bool.and_eq_true]
      refine ⟨hbl, ?_⟩
      rw [PXListPlus.is_adult_size, decide_eq_true_eq, PXListPlus.ADULT_SIZES,
        PXListPlus.adult_eq_allowed]
      exact hdrop
    rw [hvc]

theorem make_order_gender {size : Str} (hs : strip size = size)
    (h : is_size_token size = true) (name number : Str) (qty : Nat) :
    (make_order name number qty size).Gender =
      (if PXListPlus.is_babylook_size (upper size) then ['F','E'] else ['M','A']) := by
  simp only [make_order, hasSub_BL_of_px_size hs h]

theorem px_no_child {size : Str} (h : is_size_token size = true) :
    PXListPlus.is_child_size (upper (strip size)) = false := by
  obtain ⟨hall, _⟩ := px_is_size_cases h
  cases hch : PXListPlus.is_child_size (upper (strip size)) with
  | false => rfl
  | true =>
    exfalso
    rcases PXListPlus.child_shape hch with ⟨c, a, hc, hr, _⟩ | ⟨c2, a, hc, _, _⟩
    · rw [hc] at hall
      have hf := List.all_eq_true.mp hall c (List.mem_cons_self _ _)
      rw [Bool.and_eq_true, decide_eq_true_eq, decide_eq_true_eq] at hf
      have h65 : ('A' : Char).toNat ≤ c.toNat := char_le_iff_toNat.mp hf.1
      have h57 : c.toNat ≤ ('9' : Char).toNat :=
        char_le_iff_toNat.mp (of_decide_eq_true ((Bool.and_eq_true _ _).mp hr).2)
      have hA : ('A' : Char).toNat = 65 := rfl
      have h9 : ('9' : Char).toNat = 57 := rfl
      omega
    · rw [hc] at hall
      have hf := List.all_eq_true.mp hall '1' (List.mem_cons_self _ _)
      exact absurd hf (by decide)

end PXList

/-- C2: gender inference on normalized size tokens: with every entry of the
form `QTY-CODE` for a valid uppercase code, `detect_gender_from_sizes`
errors exactly when both a child-class and a babylook-class code occur,
returns `C` when a child code occurs, `FE` when a babylook code occurs and
`MA` otherwise; `PXList.make_order` sets `FE` exactly for babylook sizes and
`MA` otherwise, and PXList size tokens are never child-class; the pair
`["1-BLP", "1-4A"]` yields the divergence error. -/
theorem C2_gender :
    (∀ (sizes codes : List Str) (lineNo : Nat),
        List.Forall₂ PXListPlus.GoodTok sizes codes →
        PXListPlus.detect_gender_from_sizes sizes lineNo =
          (if codes.any PXListPlus.is_child_size && codes.any PXListPlus.is_babylook_size then
            .error (("Linha ".data) ++ Py.natStr lineNo ++
              (": divergencia (infantil + babylook na mesma linha).".data))
          else if codes.any PXListPlus.is_child_size then .ok (['C'])
          else if codes.any PXListPlus.is_babylook_size then .ok (['F','E'])
          else .ok (['M','A']))) ∧
    (∀ name number size : Str, ∀ qty : Nat,
        Py.strip size = size → PXList.is_size_token size = true →
        (PXList.make_order name number qty size).Gender =
          (if PXListPlus.is_babylook_size (Py.upper size) then ['F','E'] else ['M','A'])) ∧
    (∀ size : Str, PXList.is_size_token size = true →
        PXListPlus.is_child_size (Py.upper (Py.strip size)) = false) ∧
    PXListPlus.detect_gender_from_sizes [("1-BLP".data), ("1-4A".data)] 1 =
      .error (("Linha 1: divergencia (infantil + babylook na mesma linha).".data)) := by
  refine ⟨?_, ?_, ?_, by decide⟩
  · intro sizes codes lineNo h
    exact PXListPlus.detect_gender_spec lineNo h
  · intro name number size qty hs h
    exact PXList.make_order_gender hs h name number qty
  · intro size h
    exact PXList.px_no_child h

/-- C2 witness: the theorem applied to the concrete normalized token list
`["1-BLP"]` (babylook, so `FE`) and to `make_order` on size `M`. -/
theorem C2_gender_witness :
    PXListPlus.detect_gender_from_sizes [("1-BLP".data)] 7 = .ok (['F','E']) ∧
    (PXList.make_order ("ANA".data) ("10".data) 2 ("M".data)).Gender = ("MA".data) := by
  constructor
  · have h := C2_gender.1 [("1-BLP".data)] [("BLP".data)] 7
      (List.Forall₂.cons ⟨⟨['1'], by decide, by decide, rfl⟩, by decide, by decide⟩
        List.Forall₂.nil)
    rw [h]
    decide
  · have h := C2_gender.2.1 ("ANA".data) ("10".data) ("M".data) 2 (by decide) (by decide)
    rw [h]
    decide

/-! ### C8: grouped output of PXSortLite / PXSort -/

namespace PXSortLite

open Py

/-- All items parsed with bucket key `s`, in line order. -/
def bucketOf (ps : List (Str × Item)) (s : Str) : List Item :=
  (ps.filter fun p => p.1 = s).map Prod.snd

theorem bucketOf_cons (p : Str × Item) (ps : List (Str × Item)) (s : Str) :
    bucketOf (p :: ps) s =
      if p.1 = s then p.2 :: bucketOf ps s else bucketOf ps s := by
  by_cases h : p.1 = s <;> simp [bucketOf, List.filter_cons, h]

theorem lookup_addToBucket (bs : List (Str × List Item)) (k s : Str) (it : Item) :
    lookupB s (addToBucket bs k it) =
      if k = s then some ((lookupB s bs).getD [] ++ [it]) else lookupB s bs := by
  induction bs with
  | nil => by_cases h : k = s <;> simp [addToBucket, lookupB, h]
  | cons p rest ih =>
    obtain ⟨q, v⟩ := p
    by_cases hq : q = k
    · subst hq
      by_cases hs : q = s
      · subst hs; simp [addToBucket, lookupB]
      · simp [addToBucket, lookupB, hs]
    · by_cases hs : q = s
      · subst hs
        have hk : ¬(k = q) := fun he => hq he.symm
        simp [addToBucket, lookupB, hq, hk]
      · simp [addToBucket, lookupB, hq, hs, ih]

theorem lookup_foldl (ps : List (Str × Item)) :
    ∀ (bs : List (Str × List Item)) (s : Str),
    lookupB s (ps.foldl (fun bs p => addToBucket bs p.1 p.2) bs) =
      (match lookupB s bs with
      | some v => some (v ++ bucketOf ps s)
      | none =>
        if (bucketOf ps s).isEmpty then none else some (bucketOf ps s)) := by
  induction ps with
  | nil =>
    intro bs s
    cases h : lookupB s bs <;> simp [bucketOf, h]
  | cons p ps ih =>
    intro bs s
    rw [List.foldl_cons, ih, lookup_addToBucket, bucketOf_cons]
    by_cases h : p.1 = s
    · cases hl : lookupB s bs with
      | none => simp [h, hl]
      | some v => simp [h, hl]
    · cases hl : lookupB s bs with
      | none => simp [h, hl]
      | some v => simp [h, hl]

theorem lookup_rawBuckets (text : Str) (s : Str) :
    lookupB s (rawBuckets text) =
      (if (bucketOf (parsedOf text) s).isEmpty then none
      else some (bucketOf (parsedOf text) s)) := by
  rw [rawBuckets, lookup_foldl]
  rfl

theorem keys_addToBucket (bs : List (Str × List Item)) (k : Str) (it : Item) :
    (addToBucket bs k it).map Prod.fst =
      (if k ∈ bs.map Prod.fst then bs.map Prod.fst else bs.map Prod.fst ++ [k]) := by
  induction bs with
  | nil => simp [addToBucket]
  | cons p rest ih =>
    obtain ⟨q, v⟩ := p
    by_cases hq : q = k
    · subst hq; simp [addToBucket]
    · have hk : ¬(k = q) := fun he => hq he.symm
      by_cases hm : k ∈ rest.map Prod.fst
      · simp [addToBucket, hq, ih, hm, hk]
      · simp [addToBucket, hq, ih, hm, hk]

theorem nodup_keys_addToBucket {bs : List (Str × List Item)}
    (h : (bs.map Prod.fst).Nodup) (k : Str) (it : Item) :
    ((addToBucket bs k it).map Prod.fst).Nodup := by
  rw [keys_addToBucket]
  split
  · exact h
  · rename_i hk
    rw [List.nodup_append]
    refine ⟨h, List.nodup_singleton _, ?_⟩
    intro a ha hb
    rw [List.mem_singleton] at hb
    subst hb
    exact hk ha

theorem nodup_keys_foldl (ps : List (Str × Item)) :
    ∀ {bs : List (Str × List Item)}, (bs.map Prod.fst).Nodup →
    ((ps.foldl (fun bs p => addToBucket bs p.1 p.2) bs).map Prod.fst).Nodup := by
  induction ps with
  | nil => intro bs h; exact h
  | cons p ps ih => intro bs h; exact ih (nodup_keys_addToBucket h p.1 p.2)

theorem nodup_keys_rawBuckets (text : Str) :
    ((rawBuckets text).map Prod.fst).Nodup :=
  nodup_keys_foldl _ (by simp)

theorem mem_keys_iff_lookup (bs : List (Str × List Item)) (s : Str) :
    s ∈ bs.map Prod.fst ↔ (lookupB s bs).isSome := by
  induction bs with
  | nil => simp [lookupB]
  | cons p rest ih =>
    obtain ⟨k, v⟩ := p
    by_cases h : k = s
    · subst h; simp [lookupB]
    · have hs : ¬(s = k) := fun he => h he.symm
      simp [lookupB, h, hs, ih]

theorem lookup_of_mem_nodup {bs : List (Str × List Item)}
    (hn : (bs.map Prod.fst).Nodup) {k : Str} {v : List Item}
    (h : (k, v) ∈ bs) : lookupB k bs = some v := by
  induction bs with
  | nil => cases h
  | cons p rest ih =>
    obtain ⟨q, w⟩ := p
    rcases List.mem_cons.mp h with he | hm
    · obtain ⟨h1, h2⟩ := Prod.mk.injEq .. ▸ he
      subst h1; subst h2
      simp [lookupB]
    · have hq : ¬(q = k) := by
        intro he
        subst he
        exact (List.nodup_cons.mp hn).1
          (by simpa using List.mem_map_of_mem Prod.fst hm)
      rw [lookupB, if_neg hq]
      exact ih (List.nodup_cons.mp hn).2 hm

theorem keys_sortBuckets (bs : List (Str × List Item)) :
    (sortBuckets bs).map Prod.fst = bs.map Prod.fst := by
  simp [sortBuckets, List.map_map, Function.comp]

theorem lookup_sortBuckets (s : Str) (bs : List (Str × List Item)) :
    lookupB s (sortBuckets bs) = (lookupB s bs).map (List.insertionSort itemLe) := by
  induction bs with
  | nil => rfl
  | cons p rest ih =>
    obtain ⟨k, v⟩ := p
    have ih2 : lookupB s (rest.map fun p => (p.1, List.insertionSort itemLe p.2)) =
        Option.map (List.insertionSort itemLe) (lookupB s rest) := ih
    by_cases h : k = s <;> simp [sortBuckets, lookupB, h, ih2]

theorem bucketOf_isEmpty_iff (ps : List (Str × Item)) (s : Str) :
    (bucketOf ps s).isEmpty = false ↔ ∃ it, (s, it) ∈ ps := by
  induction ps with
  | nil => simp [bucketOf]
  | cons p ps ih =>
    obtain ⟨k, it0⟩ := p
    rw [bucketOf_cons]
    by_cases h : k = s
    · subst h
      simp [List.isEmpty]
    · simp only [h, if_false]
      rw [ih]
      constructor
      · rintro ⟨it, hm⟩; exact ⟨it, List.mem_cons_of_mem _ hm⟩
      · rintro ⟨it, hm⟩
        rcases List.mem_cons.mp hm with he | hm2
        · obtain ⟨h1, _⟩ := Prod.mk.injEq .. ▸ he.symm
          exact absurd h1 h
        · exact ⟨it, hm2⟩

theorem map_fst_pair_map {l : List Str} {g : Str → List Item} :
    (l.map fun s => (s, g s)).map Prod.fst = l := by
  induction l with
  | nil => rfl
  | cons a t ih => simp [ih]

theorem keys_process_sections (text : Str) :
    (process_sections text).map Prod.fst =
      List.insertionSort keyLe ((rawBuckets text).map Prod.fst) := by
  show ((List.insertionSort keyLe ((sortBuckets (rawBuckets text)).map Prod.fst)).map
      fun s => (s, (lookupB s (sortBuckets (rawBuckets text))).getD [])).map Prod.fst = _
  rw [map_fst_pair_map, keys_sortBuckets]

theorem mem_process_sections {text : Str} {sec : Str × List Item}
    (h : sec ∈ process_sections text) :
    sec.2 = List.insertionSort itemLe (bucketOf (parsedOf text) sec.1) := by
  rw [process_sections] at h
  obtain ⟨s, hs, rfl⟩ := List.mem_map.mp h
  have hmem : s ∈ (rawBuckets text).map Prod.fst := by
    rw [← keys_sortBuckets]
    exact (List.perm_insertionSort keyLe _).mem_iff.mp hs
  have hlook := (mem_keys_iff_lookup _ _).mp hmem
  rw [lookup_rawBuckets] at hlook
  by_cases he : (bucketOf (parsedOf text) s).isEmpty = true
  · rw [if_pos he] at hlook; cases hlook
  · rw [if_neg he] at hlook
    show (lookupB s (sortBuckets (rawBuckets text))).getD [] = _
    rw [lookup_sortBuckets, lookup_rawBuckets, if_neg he]
    rfl

end PXSortLite

/-- C8: the grouped output of PXSortLite/PXSort: section keys are the bucket
keys sorted lexicographically and without duplicates; a key appears exactly
when some record parsed to it; each section holds exactly the records parsed
to its size code (one bucket per record), sorted by the `(name, number)`
string pair; Legado `build_buckets` produces the same per-key sorted buckets;
on a concrete text, `"10"` sorts before `"9"` (string, not numeric order). -/
theorem C8_buckets :
    (∀ text : Str,
        List.Sorted PXSortLite.keyLe ((PXSortLite.process_sections text).map Prod.fst) ∧
        ((PXSortLite.process_sections text).map Prod.fst).Nodup) ∧
    (∀ text s : Str,
        s ∈ (PXSortLite.process_sections text).map Prod.fst ↔
          ∃ it, (s, it) ∈ PXSortLite.parsedOf text) ∧
    (∀ (text : Str) (sec : Str × List PXSortLite.Item),
        sec ∈ PXSortLite.process_sections text →
        sec.2 = List.insertionSort PXSortLite.itemLe
            (PXSortLite.bucketOf (PXSortLite.parsedOf text) sec.1) ∧
        List.Sorted PXSortLite.itemLe sec.2 ∧
        sec.2.Perm (PXSortLite.bucketOf (PXSortLite.parsedOf text) sec.1)) ∧
    (∀ text : Str,
        (((PXSort.build_buckets text).1).map Prod.fst).Nodup ∧
        ∀ p ∈ (PXSort.build_buckets text).1,
          p.2 = List.insertionSort PXSortLite.itemLe
            (PXSortLite.bucketOf (PXSortLite.parsedOf text) p.1)) ∧
    PXSortLite.process_sections ("JOAO,M,10\nJOAO,M,9\nANA,G,2".data) =
      [(("G".data), [⟨("ANA".data), ("2".data)⟩]),
       (("M".data), [⟨("JOAO".data), ("10".data)⟩, ⟨("JOAO".data), ("9".data)⟩])] := by
  refine ⟨?_, ?_, ?_, ?_, by decide⟩
  · intro text
    rw [PXSortLite.keys_process_sections]
    constructor
    · exact List.sorted_insertionSort PXSortLite.keyLe _
    · exact ((List.perm_insertionSort PXSortLite.keyLe _).nodup_iff).mpr
        (PXSortLite.nodup_keys_rawBuckets text)
  · intro text s
    rw [PXSortLite.keys_process_sections,
      (List.perm_insertionSort PXSortLite.keyLe _).mem_iff,
      PXSortLite.mem_keys_iff_lookup, PXSortLite.lookup_rawBuckets,
      ← PXSortLite.bucketOf_isEmpty_iff]
    cases he : (PXSortLite.bucketOf (PXSortLite.parsedOf text) s).isEmpty with
    | true => simp [he]
    | false => simp [he]
  · intro text sec hmem
    have h1 := PXSortLite.mem_process_sections hmem
    refine ⟨h1, ?_, ?_⟩
    · rw [h1]; exact List.sorted_insertionSort PXSortLite.itemLe _
    · rw [h1]; exact List.perm_insertionSort PXSortLite.itemLe _
  · intro text
    constructor
    · show ((PXSortLite.sortBuckets (PXSortLite.rawBuckets text)).map Prod.fst).Nodup
      rw [PXSortLite.keys_sortBuckets]
      exact PXSortLite.nodup_keys_rawBuckets text
    · intro p hp
      have hp2 : p ∈ (PXSortLite.rawBuckets text).map
          fun q => (q.1, List.insertionSort PXSortLite.itemLe q.2) := hp
      obtain ⟨q, hq, rfl⟩ := List.mem_map.mp hp2
      have hl := PXSortLite.lookup_of_mem_nodup
        (PXSortLite.nodup_keys_rawBuckets text) hq
      rw [PXSortLite.lookup_rawBuckets] at hl
      by_cases he : (PXSortLite.bucketOf (PXSortLite.parsedOf text) q.1).isEmpty = true
      · rw [if_pos he] at hl; cases hl
      · rw [if_neg he] at hl
        have h2 := Option.some.inj hl
        show List.insertionSort PXSortLite.itemLe q.2 = _
        rw [← h2]

/-- C8 witness: the theorem applied to the concrete text
`JOAO,M,10 / JOAO,M,9 / ANA,G,2`, discharging the section-membership
hypothesis on the `M` section. -/
theorem C8_buckets_witness :
    ((("M".data), [(⟨("JOAO".data), ("10".data)⟩ : PXSortLite.Item),
        ⟨("JOAO".data), ("9".data)⟩]) ∈
      PXSortLite.process_sections ("JOAO,M,10\nJOAO,M,9\nANA,G,2".data)) ∧
    List.Sorted PXSortLite.itemLe
      [(⟨("JOAO".data), ("10".data)⟩ : PXSortLite.Item), ⟨("JOAO".data), ("9".data)⟩] := by
  have hm : ((("M".data), [(⟨("JOAO".data), ("10".data)⟩ : PXSortLite.Item),
        ⟨("JOAO".data), ("9".data)⟩]) ∈
      PXSortLite.process_sections ("JOAO,M,10\nJOAO,M,9\nANA,G,2".data)) := by decide
  have h := C8_buckets.2.2.1 ("JOAO,M,10\nJOAO,M,9\nANA,G,2".data)
    ((("M".data), [(⟨("JOAO".data), ("10".data)⟩ : PXSortLite.Item),
      ⟨("JOAO".data), ("9".data)⟩])) hm
  exact ⟨hm, h.2.1⟩

/-! ### C3: the canonical-line round trip of PXListLite -/

namespace Py

theorem isEmpty_false_iff {α : Type} {l : List α} : l.isEmpty = false ↔ l ≠ [] := by
  cases l <;> simp

theorem isWS_digit_false {c : Char} (h : isDigitChar c = true) : isWS c = false := by
  rw [isDigitChar, Bool.and_eq_true, decide_eq_true_eq, decide_eq_true_eq] at h
  have h0 : ('0' : Char).toNat = 48 := rfl
  have h9 : ('9' : Char).toNat = 57 := rfl
  have ha := char_le_iff_toNat.mp h.1
  have hb := char_le_iff_toNat.mp h.2
  have hsp : (' ' : Char).toNat = 32 := rfl
  have ht : ('\t' : Char).toNat = 9 := rfl
  have hn : ('\n' : Char).toNat = 10 := rfl
  have hr : ('\r' : Char).toNat = 13 := rfl
  have hv : ('\x0b' : Char).toNat = 11 := rfl
  have hf : ('\x0c' : Char).toNat = 12 := rfl
  simp only [isWS, Bool.or_eq_false_iff, decide_eq_false_iff_not]
  refine ⟨⟨⟨⟨⟨?_, ?_⟩, ?_⟩, ?_⟩, ?_⟩, ?_⟩ <;>
    (intro hc; rw [char_eq_iff_toNat] at hc; omega)

theorem takeWhile_digits {t : Str} (h : t.all isDigitChar = true) :
    t.takeWhile isDigitChar = t := by
  induction t with
  | nil => rfl
  | cons c r ih =>
    rw [List.all_cons, Bool.and_eq_true] at h
    rw [List.takeWhile_cons, if_pos h.1, ih h.2]

theorem isdigit_upper (s : Str) : isdigit (upper s) = isdigit s := by
  cases s with
  | nil => rfl
  | cons c r =>
    rw [isdigit, isdigit]
    show (!(List.isEmpty (upChar c :: upper r)) && List.all (upChar c :: upper r) isDigitChar) = _
    rw [List.all_cons, List.all_cons, isDigitChar_upChar]
    have hall : List.all (upper r) isDigitChar = List.all r isDigitChar := by
      rw [upper, List.all_map]
      congr 1
      exact funext isDigitChar_upChar
    rw [hall]
    rfl

theorem isdigit_ne_nil {t : Str} (h : isdigit t = true) : t.isEmpty = false := by
  rw [isdigit, Bool.and_eq_true] at h
  have h1 := h.1
  rwa [Bool.not_eq_true'] at h1

theorem upper_ne_nil {s : Str} (h : s ≠ []) : upper s ≠ [] := by
  cases s with
  | nil => exact absurd rfl h
  | cons c r => simp [upper]

end Py

namespace PXListLite

open Py

theorem is_size_nonempty {t : Str} (h : is_size t = true) : t ≠ [] := by
  intro he
  subst he
  exact absurd h (by decide)

theorem upTok_fixed {t : Str} (hs : strip t = t) (hu : upper t = t) : upTok t = t := by
  rw [upTok, clean_token, hs, hu]

theorem isdigit_not_size {t : Str} (hd : isdigit t = true) (hs : strip t = t)
    (hu : upper t = t) : is_size t = false := by
  have h1 : t.isEmpty = false := isdigit_ne_nil hd
  have hall : t.all isDigitChar = true := by
    rw [isdigit, Bool.and_eq_true] at hd
    exact hd.2
  have h2 : ¬ t ∈ VALID_SIZES := by
    intro hm
    simp only [VALID_SIZES, List.mem_cons, List.not_mem_nil, or_false] at hm
    rcases hm with rfl|rfl|rfl|rfl|rfl|rfl|rfl|rfl|rfl|rfl|rfl|rfl|rfl|rfl|rfl|rfl|rfl|rfl|rfl|rfl <;>
      exact absurd hall (by decide)
  have ht1 : t.dropWhile isWS = t := by
    cases ht : t with
    | nil => rfl
    | cons c r =>
      rw [ht] at hall
      rw [List.all_cons, Bool.and_eq_true] at hall
      exact dropWhile_cons_false (isWS_digit_false hall.1)
  have h3 : qtySizeGroup t = none := by
    rw [qtySizeGroup, ht1, takeWhile_digits hall]
    simp [h1, List.drop_length]
  rw [is_size, upTok_fixed hs hu, if_neg (by simp [h1]), if_neg h2, h3]

/-- Invariant of the classification state: every stored field is trimmed,
uppercased, comma-free; the number is all digits when set; tams are sizes and
extras are non-size non-empty strings recorded after the name (and after the
number when they look numeric). -/
def StInv (st : LSt) : Prop :=
  (strip st.name = st.name ∧ upper st.name = st.name ∧ ',' ∉ st.name ∧
    is_size st.name = false) ∧
  (strip st.number = st.number ∧ upper st.number = st.number ∧
    (st.number = [] ∨ isdigit st.number = true) ∧ ',' ∉ st.number) ∧
  (∀ t ∈ st.tams, strip t = t ∧ upper t = t ∧ ',' ∉ t ∧ is_size t = true) ∧
  (∀ e ∈ st.extras, strip e = e ∧ upper e = e ∧ ',' ∉ e ∧ is_size e = false ∧
    e ≠ [] ∧ (isdigit e = true → st.number ≠ [])) ∧
  (st.extras ≠ [] → st.name ≠ [])

/-- The invariant a parsed row satisfies (conjunct A of the round trip). -/
def RowInv (r : ParsedRow) : Prop :=
  (strip r.name = r.name ∧ upper r.name = r.name ∧ ',' ∉ r.name ∧
    is_size r.name = false) ∧
  (strip r.number = r.number ∧ upper r.number = r.number ∧
    (r.number = [] ∨ isdigit r.number = true) ∧ ',' ∉ r.number) ∧
  (1 ≤ r.tams.length ∧ r.tams.length ≤ 4 ∧
    (∀ t ∈ r.tams, strip t = t ∧ upper t = t ∧ ',' ∉ t ∧ is_size t = true)) ∧
  (strip r.s2 = r.s2 ∧ upper r.s2 = r.s2 ∧ ',' ∉ r.s2 ∧ is_size r.s2 = false ∧
    (r.s2 ≠ [] → r.name ≠ []) ∧ (isdigit r.s2 = true → r.number ≠ [])) ∧
  (strip r.s3 = r.s3 ∧ upper r.s3 = r.s3 ∧ ',' ∉ r.s3 ∧ is_size r.s3 = false ∧
    (r.s3 ≠ [] → r.s2 ≠ []) ∧ (isdigit r.s3 = true → r.number ≠ []))

instance (st : LSt) : Decidable (StInv st) := by
  unfold StInv
  infer_instance

instance (r : ParsedRow) : Decidable (RowInv r) := by
  unfold RowInv
  infer_instance

theorem StInv_init : StInv ⟨[], [], [], []⟩ :=
  ⟨⟨rfl, rfl, by simp, by decide⟩, ⟨rfl, rfl, Or.inl rfl, by simp⟩,
    fun t ht => absurd ht (List.not_mem_nil t),
    fun e he => absurd he (List.not_mem_nil e),
    fun hh => absurd rfl hh⟩

theorem step_StInv {st : LSt} {tok : Str} (h : StInv st) (hc : ',' ∉ tok) :
    StInv (step st tok) := by
  by_cases h0 : (strip tok).isEmpty = true
  · rw [step_empty h0]; exact h
  · have h0' : (strip tok).isEmpty = false := by
      cases hb : (strip tok).isEmpty with
      | false => rfl
      | true => exact absurd hb h0
    have hne : strip tok ≠ [] := isEmpty_false_iff.mp h0'
    have hupS : strip (upper (strip tok)) = upper (strip tok) := by
      rw [strip_upper, strip_idem]
    have hupU : upper (upper (strip tok)) = upper (strip tok) := upper_upper _
    have hupC : ',' ∉ upper (strip tok) :=
      comma_not_mem_upper (fun hm => hc (mem_strip hm))
    have hupN : upper (strip tok) ≠ [] := upper_ne_nil hne
    obtain ⟨hN, hM, hT, hE, hEN⟩ := h
    by_cases hsz : is_size (upper (strip tok)) = true
    · rw [step_size h0' hsz]
      refine ⟨hN, hM, ?_, hE, hEN⟩
      intro t ht
      rcases List.mem_append.mp ht with h1 | h1
      · exact hT t h1
      · rw [List.mem_singleton] at h1
        subst h1
        exact ⟨hupS, hupU, hupC, hsz⟩
    · have hsz' : is_size (upper (strip tok)) = false := by
        cases hb : is_size (upper (strip tok)) with
        | false => rfl
        | true => exact absurd hb hsz
      cases hnum : (isdigit (strip tok) && st.number.isEmpty) with
      | true =>
        rw [Bool.and_eq_true] at hnum
        rw [step_num h0' hsz' hnum.1 hnum.2]
        refine ⟨hN, ⟨hupS, hupU, Or.inr ?_, hupC⟩, hT, ?_, hEN⟩
        · rw [isdigit_upper]
          exact hnum.1
        · intro e he
          obtain ⟨a, b, c, d, e', _⟩ := hE e he
          exact ⟨a, b, c, d, e', fun _ => hupN⟩
      | false =>
        rw [step_text h0' hsz' hnum]
        by_cases hname : st.name.isEmpty = true
        · rw [if_pos hname]
          exact ⟨⟨hupS, hupU, hupC, hsz'⟩, hM, hT, hE, fun _ => hupN⟩
        · rw [if_neg hname]
          have hname' : st.name ≠ [] := by
            apply isEmpty_false_iff.mp
            cases hb : st.name.isEmpty with
            | false => rfl
            | true => exact absurd hb hname
          refine ⟨hN, hM, hT, ?_, fun _ => hname'⟩
          intro e he
          rcases List.mem_append.mp he with h1 | h1
          · exact hE e h1
          · rw [List.mem_singleton] at h1
            subst h1
            refine ⟨hupS, hupU, hupC, hsz', hupN, ?_⟩
            intro hdig hnil
            rw [isdigit_upper] at hdig
            rw [hdig, hnil] at hnum
            simp at hnum

theorem foldl_StInv : ∀ (parts : List Str), (∀ p ∈ parts, ',' ∉ p) →
    ∀ {st : LSt}, StInv st → StInv (parts.foldl step st) := by
  intro parts
  induction parts with
  | nil => intro _ st h; exact h
  | cons p ps ih =>
    intro hc st h
    exact ih (fun x hx => hc x (List.mem_cons_of_mem _ hx))
      (step_StInv h (hc p (List.mem_cons_self _ _)))

theorem partsOf_comma_free {raw : Str} : ∀ p ∈ partsOf raw, ',' ∉ p := by
  intro p hp
  rw [partsOf] at hp
  obtain ⟨q, hq, rfl⟩ := List.mem_map.mp hp
  intro hm
  exact not_mem_of_mem_splitOn hq (mem_strip hm)

theorem RowInv_of_StInv {st : LSt} (h : StInv st) (h1 : st.tams ≠ [])
    (h4 : st.tams.length ≤ 4) :
    RowInv ⟨st.name, st.number, st.tams, st.extras.headD [],
      (st.extras.drop 1).headD []⟩ := by
  obtain ⟨hN, hM, hT, hE, hEN⟩ := h
  obtain ⟨st_name, st_number, st_tams, st_extras⟩ := st
  dsimp only at *
  refine ⟨hN, hM, ⟨List.length_pos.mpr h1, h4, hT⟩, ?_, ?_⟩
  · cases st_extras with
    | nil =>
      exact ⟨rfl, rfl, by simp, by show is_size ([] : Str) = false; decide,
        fun hh => absurd rfl hh,
        fun hh => absurd hh (by show ¬isdigit ([] : Str) = true; decide)⟩
    | cons e es =>
      obtain ⟨a, b, c, d, _, f⟩ := hE e (List.mem_cons_self _ _)
      exact ⟨a, b, c, d, fun _ => hEN (by simp), f⟩
  · cases st_extras with
    | nil =>
      exact ⟨rfl, rfl, by simp, by show is_size ([] : Str) = false; decide,
        fun hh => absurd rfl hh,
        fun hh => absurd hh (by show ¬isdigit ([] : Str) = true; decide)⟩
    | cons e es =>
      cases es with
      | nil =>
        exact ⟨rfl, rfl, by simp, by show is_size ([] : Str) = false; decide,
          fun hh => absurd rfl hh,
          fun hh => absurd hh (by show ¬isdigit ([] : Str) = true; decide)⟩
      | cons e2 es2 =>
        obtain ⟨a, b, c, d, _, f⟩ := hE e2
          (List.mem_cons_of_mem _ (List.mem_cons_self _ _))
        exact ⟨a, b, c, d, fun _ => (hE e (List.mem_cons_self _ _)).2.2.2.2.1, f⟩

theorem parse_line_RowInv {l : Str} {r : ParsedRow}
    (h : parse_line l = .ok (some r)) : RowInv r := by
  have hinv := foldl_StInv (partsOf (strip l)) partsOf_comma_free StInv_init
  rw [parse_line] at h
  split at h
  · cases h
  · dsimp only at h
    split at h
    · cases h
    · split at h
      · cases h
      · rename_i hne h4
        cases h
        apply RowInv_of_StInv hinv
        · intro hnil
          apply hne
          rw [hnil]
          rfl
        · omega

theorem map_clean_fixed {ps : List Str} (h : ∀ p ∈ ps, strip p = p) :
    ps.map clean_token = ps := by
  induction ps with
  | nil => rfl
  | cons p t ih =>
    rw [List.map_cons, clean_token, h p (List.mem_cons_self _ _),
      ih (fun x hx => h x (List.mem_cons_of_mem _ hx))]

theorem tams_fold {ts : List Str}
    (h : ∀ t ∈ ts, strip t = t ∧ upper t = t ∧ is_size t = true) :
    ∀ st : LSt, ts.foldl step st = { st with tams := st.tams ++ ts } := by
  induction ts with
  | nil => intro st; simp
  | cons t ts ih =>
    intro st
    obtain ⟨hs, hu, hz⟩ := h t (List.mem_cons_self _ _)
    have hne : t ≠ [] := is_size_nonempty hz
    have h1 : (strip t).isEmpty = false := by
      rw [hs]
      exact isEmpty_false_iff.mpr hne
    have hstep : step st t = { st with tams := st.tams ++ [t] } := by
      rw [step_size h1 (by rw [hs, hu]; exact hz), hs, hu]
    rw [List.foldl_cons, hstep, ih (fun x hx => h x (List.mem_cons_of_mem _ hx))]
    simp

theorem pads_fold (k : Nat) :
    ∀ st : LSt, (List.replicate k ([] : Str)).foldl step st = st := by
  induction k with
  | zero => intro st; rfl
  | succ n ih =>
    intro st
    rw [List.replicate_succ, List.foldl_cons, step_empty (by rfl)]
    exact ih st

theorem step_extra {st : LSt} {x : Str}
    (hxs : strip x = x) (hxu : upper x = x) (hxsz : is_size x = false)
    (hxne : x ≠ []) (hname : st.name ≠ [])
    (hnum : isdigit x = true → st.number ≠ []) :
    step st x = { st with extras := st.extras ++ [x] } := by
  have h34 : (isdigit (strip x) && st.number.isEmpty) = false := by
    rw [hxs]
    cases hd : isdigit x with
    | false => rfl
    | true =>
      have hb : st.number.isEmpty = false := isEmpty_false_iff.mpr (hnum hd)
      rw [hb]
      rfl
  have hn : st.name.isEmpty = false := isEmpty_false_iff.mpr hname
  rw [step_text (by rw [hxs]; exact isEmpty_false_iff.mpr hxne)
    (by rw [hxs, hxu]; exact hxsz) h34]
  rw [if_neg (by rw [hn]; exact Bool.false_ne_true)]
  rw [hxs, hxu]

theorem reparse_row {maxT : Nat} {h2 h3 : Bool} {r : ParsedRow}
    (hinv : RowInv r) (hnd : isdigit r.name = false)
    (he2 : h2 = false → r.s2 = []) (he3 : h3 = false → r.s3 = []) :
    parse_line (rowLine maxT h2 h3 r) = .ok (some r) := by
  obtain ⟨⟨hns, hnu, hnc, hnsz⟩, ⟨hms, hmu, hmd, hmc⟩, ⟨ht1, ht4, htall⟩,
    ⟨h2s, h2u, h2c, h2sz, h2n, h2d⟩, ⟨h3s, h3u, h3c, h3sz, h3n2, h3d⟩⟩ := hinv
  have hifmem : ∀ (b : Bool) (x p : Str),
      p ∈ (if b then [x] else ([] : List Str)) → p = x := by
    intro b x p hp
    cases b
    · simp at hp
    · simpa using hp
  have hcase : ∀ p ∈ rowCols maxT h2 h3 r,
      p = r.name ∨ p = r.number ∨ p ∈ r.tams ∨ p = [] ∨ p = r.s2 ∨ p = r.s3 := by
    intro p hp
    rw [rowCols] at hp
    rcases List.mem_append.mp hp with hp1 | hpS3
    · rcases List.mem_append.mp hp1 with hp2 | hpS2
      · rcases List.mem_append.mp hp2 with hpNN | hpTR
        · rcases List.mem_cons.mp hpNN with hh | hh
          · exact Or.inl hh
          · rcases List.mem_cons.mp hh with hh2 | hh2
            · exact Or.inr (Or.inl hh2)
            · exact absurd hh2 (List.not_mem_nil p)
        · rcases List.mem_append.mp hpTR with hh | hh
          · exact Or.inr (Or.inr (Or.inl hh))
          · exact Or.inr (Or.inr (Or.inr (Or.inl (List.eq_of_mem_replicate hh))))
      · exact Or.inr (Or.inr (Or.inr (Or.inr (Or.inl (hifmem _ _ _ hpS2)))))
    · exact Or.inr (Or.inr (Or.inr (Or.inr (Or.inr (hifmem _ _ _ hpS3)))))
  have hfix : ∀ p ∈ rowCols maxT h2 h3 r, strip p = p := by
    intro p hp
    rcases hcase p hp with rfl | rfl | hm | rfl | rfl | rfl
    · exact hns
    · exact hms
    · exact (htall p hm).1
    · rfl
    · exact h2s
    · exact h3s
  have hcom : ∀ p ∈ rowCols maxT h2 h3 r, ',' ∉ p := by
    intro p hp
    rcases hcase p hp with rfl | rfl | hm | rfl | rfl | rfl
    · exact hnc
    · exact hmc
    · exact (htall p hm).2.2.1
    · simp
    · exact h2c
    · exact h3c
  have hcols_ne : rowCols maxT h2 h3 r ≠ [] := by
    rw [rowCols]
    simp
  have hsplit : splitOn ',' (rowLine maxT h2 h3 r) = rowCols maxT h2 h3 r := by
    rw [rowLine]
    exact splitOn_joinSep hcols_ne hcom
  have hstripline : strip (rowLine maxT h2 h3 r) = rowLine maxT h2 h3 r := by
    rw [rowLine]
    exact strip_joinSep hfix
  have hlinene : rowLine maxT h2 h3 r ≠ [] := by
    rw [rowLine, rowCols]
    simp only [List.cons_append, List.nil_append]
    intro hh
    simp [joinSep] at hh
  have hparts : partsOf (rowLine maxT h2 h3 r) = rowCols maxT h2 h3 r := by
    rw [partsOf, hsplit, map_clean_fixed hfix]
  have hst12 : ([r.name, r.number] : List Str).foldl step ⟨[], [], [], []⟩ =
      ⟨r.name, r.number, [], []⟩ := by
    have hstep1 : step ⟨[], [], [], []⟩ r.name = ⟨r.name, [], [], []⟩ := by
      by_cases hname : r.name = []
      · rw [hname]
        exact step_empty rfl
      · rw [step_text (by rw [hns]; exact isEmpty_false_iff.mpr hname)
          (by rw [hns, hnu]; exact hnsz)
          (by rw [hns, hnd]; rfl)]
        show (⟨upper (strip r.name), [], [], []⟩ : LSt) = ⟨r.name, [], [], []⟩
        rw [hns, hnu]
    have hstep2 : step ⟨r.name, [], [], []⟩ r.number = ⟨r.name, r.number, [], []⟩ := by
      by_cases hnum : r.number = []
      · rw [hnum]
        exact step_empty rfl
      · have hdig : isdigit r.number = true := by
          rcases hmd with hh | hh
          · exact absurd hh hnum
          · exact hh
        rw [step_num (by rw [hms]; exact isEmpty_false_iff.mpr hnum)
          (by rw [hms, hmu]; exact isdigit_not_size hdig hms hmu)
          (by rw [hms]; exact hdig) (by rfl)]
        rw [hms, hmu]
    rw [List.foldl_cons, hstep1, List.foldl_cons, hstep2, List.foldl_nil]
  have hst3 : (r.tams ++ List.replicate (maxT - r.tams.length) []).foldl step
      (⟨r.name, r.number, [], []⟩ : LSt) = ⟨r.name, r.number, r.tams, []⟩ := by
    rw [List.foldl_append,
      tams_fold (fun t ht => ⟨(htall t ht).1, (htall t ht).2.1, (htall t ht).2.2.2⟩),
      pads_fold]
    simp
  have hstS2 : (if h2 then [r.s2] else []).foldl step
      (⟨r.name, r.number, r.tams, []⟩ : LSt) =
      ⟨r.name, r.number, r.tams, if r.s2 = [] then [] else [r.s2]⟩ := by
    cases h2 with
    | false =>
      have hs2 := he2 rfl
      simp [hs2]
    | true =>
      by_cases hs2 : r.s2 = []
      · simp only [if_true, List.foldl_cons, List.foldl_nil]
        rw [hs2, step_empty (by rfl)]
        simp [hs2]
      · simp only [if_true, List.foldl_cons, List.foldl_nil]
        rw [step_extra h2s h2u h2sz hs2 (h2n hs2) h2d]
        simp [hs2]
  have hstS3 : (if h3 then [r.s3] else []).foldl step
      (⟨r.name, r.number, r.tams, if r.s2 = [] then [] else [r.s2]⟩ : LSt) =
      ⟨r.name, r.number, r.tams,
        (if r.s2 = [] then [] else [r.s2]) ++ (if r.s3 = [] then [] else [r.s3])⟩ := by
    cases h3 with
    | false =>
      have hs3 := he3 rfl
      simp [hs3]
    | true =>
      by_cases hs3 : r.s3 = []
      · simp only [if_true, List.foldl_cons, List.foldl_nil]
        rw [hs3, step_empty (by rfl)]
        simp [hs3]
      · have hs2 : r.s2 ≠ [] := h3n2 hs3
        simp only [if_true, List.foldl_cons, List.foldl_nil]
        rw [step_extra h3s h3u h3sz hs3 (by exact h2n hs2) h3d]
        simp [hs3]
  have hschain : (rowCols maxT h2 h3 r).foldl step ⟨[], [], [], []⟩ =
      ⟨r.name, r.number, r.tams,
        (if r.s2 = [] then [] else [r.s2]) ++ (if r.s3 = [] then [] else [r.s3])⟩ := by
    rw [rowCols]
    simp only [List.foldl_append]
    rw [hst12,
      tams_fold (fun t ht => ⟨(htall t ht).1, (htall t ht).2.1, (htall t ht).2.2.2⟩),
      pads_fold]
    simp only [List.nil_append]
    rw [hstS2, hstS3]
  have htne : r.tams ≠ [] := by
    intro hh
    rw [hh] at ht1
    simp at ht1
  have hlf : (rowLine maxT h2 h3 r).isEmpty = false := isEmpty_false_iff.mpr hlinene
  rw [parse_line, hstripline]
  dsimp only
  rw [if_neg (by rw [hlf]; exact Bool.false_ne_true)]
  rw [hparts, hschain]
  dsimp only
  rw [if_neg (by rw [isEmpty_false_iff.mpr htne]; exact Bool.false_ne_true)]
  rw [if_neg (by omega)]
  conv_rhs => rw [show r = (⟨r.name, r.number, r.tams, r.s2, r.s3⟩ : ParsedRow) from rfl]
  by_cases hs2 : r.s2 = []
  · have hs3 : r.s3 = [] := by
      by_contra hh
      exact (h3n2 hh) hs2
    simp [hs2, hs3]
  · by_cases hs3 : r.s3 = []
    · simp [hs2, hs3]
    · simp [hs2, hs3]

theorem batch_s2_empty {rows : List ParsedRow} {r : ParsedRow} (hr : r ∈ rows)
    (h : hasS2 rows = false) : r.s2 = [] := by
  by_contra hne
  have hh : hasS2 rows = true := by
    rw [hasS2, List.any_eq_true]
    exact ⟨r, hr, by rw [isEmpty_false_iff.mpr hne]; rfl⟩
  rw [h] at hh
  cases hh

theorem batch_s3_empty {rows : List ParsedRow} {r : ParsedRow} (hr : r ∈ rows)
    (h : hasS3 rows = false) : r.s3 = [] := by
  by_contra hne
  have hh : hasS3 rows = true := by
    rw [hasS3, List.any_eq_true]
    exact ⟨r, hr, by rw [isEmpty_false_iff.mpr hne]; rfl⟩
  rw [h] at hh
  cases hh

theorem build_output_lines {rows : List ParsedRow} (h : rows ≠ []) :
    build_output rows =
      joinSep '\n' (rows.map (rowLine (maxTams rows) (hasS2 rows) (hasS3 rows))) := by
  rw [build_output, if_neg (by rw [isEmpty_false_iff.mpr h]; exact Bool.false_ne_true)]

end PXListLite

/-- C3 counterexample: on the line `5,7,M` the first number token becomes the
NUMBER and the second becomes the NAME, so serializing puts `7` (the name)
before `5` (the number); re-parsing `7,5,M` then classifies `7` as the number
and `5` as the name — the round trip swaps the two fields instead of being the
identity. -/
theorem C3_roundtrip_counterexample :
    PXListLite.parse_line ("5,7,M".data) =
      .ok (some ⟨("7".data), ("5".data), [("M".data)], [], []⟩) ∧
    PXListLite.build_output [⟨("7".data), ("5".data), [("M".data)], [], []⟩] =
      ("7,5,M".data) ∧
    PXListLite.parse_line ("7,5,M".data) =
      .ok (some ⟨("5".data), ("7".data), [("M".data)], [], []⟩) ∧
    (⟨("5".data), ("7".data), [("M".data)], [], []⟩ : PXListLite.ParsedRow) ≠
      ⟨("7".data), ("5".data), [("M".data)], [], []⟩ := by
  refine ⟨by decide, by decide, by decide, by decide⟩

/-- C3 (amended): every row produced by `parse_line` satisfies the row
invariant (trimmed, uppercased, comma-free fields; an all-digit-or-empty
number; 1–4 size fields; extras only after a name, and digit-like extras only
after a number), and for every such row whose NAME is not all digits the
canonical line emitted by `build_output` re-parses to exactly the same row —
with the optional-column flags sound for every batch member and
`build_output` being the newline join of those canonical lines. -/
theorem C3_roundtrip :
    (∀ (l : Str) (r : PXListLite.ParsedRow),
        PXListLite.parse_line l = .ok (some r) → PXListLite.RowInv r) ∧
    (∀ (maxT : Nat) (h2 h3 : Bool) (r : PXListLite.ParsedRow),
        PXListLite.RowInv r → Py.isdigit r.name = false →
        (h2 = false → r.s2 = []) → (h3 = false → r.s3 = []) →
        PXListLite.parse_line (PXListLite.rowLine maxT h2 h3 r) = .ok (some r)) ∧
    (∀ (rows : List PXListLite.ParsedRow) (r : PXListLite.ParsedRow), r ∈ rows →
        (PXListLite.hasS2 rows = false → r.s2 = []) ∧
        (PXListLite.hasS3 rows = false → r.s3 = [])) ∧
    (∀ rows : List PXListLite.ParsedRow, rows ≠ [] →
        PXListLite.build_output rows = Py.joinSep '\n'
          (rows.map (PXListLite.rowLine (PXListLite.maxTams rows)
            (PXListLite.hasS2 rows) (PXListLite.hasS3 rows)))) := by
  refine ⟨?_, ?_, ?_, ?_⟩
  · intro l r h
    exact PXListLite.parse_line_RowInv h
  · intro maxT h2 h3 r hi hd he2 he3
    exact PXListLite.reparse_row hi hd he2 he3
  · intro rows r hr
    exact ⟨PXListLite.batch_s2_empty hr, PXListLite.batch_s3_empty hr⟩
  · intro rows h
    exact PXListLite.build_output_lines h

/-- C3 witness: the round trip applied to the concrete row
`(ANA, 5, [M])` with one TAM column and no optional columns. -/
theorem C3_roundtrip_witness :
    PXListLite.parse_line (PXListLite.rowLine 1 false false
      ⟨("ANA".data), ("5".data), [("M".data)], [], []⟩) =
      .ok (some ⟨("ANA".data), ("5".data), [("M".data)], [], []⟩) :=
  C3_roundtrip.2.1 1 false false ⟨("ANA".data), ("5".data), [("M".data)], [], []⟩
    (by decide) (by decide) (fun _ => rfl) (fun _ => rfl)
